import Mathlib

/-!
# Verification of the naming/shape adapter of graphql-movie-database

Shallow embedding of the core transforms of the repository:

* `src/utils/camelCase.js` — `deCamelCaseKey`, `transformEnumValue`,
  `deCamelCaseArgs` (and the `part_003` revision of `deCamelCaseArgs`,
  and the fixed `snakeCase` of `part_005`);
* `src/datasources/MovieDatabase.js` — `transformSortByInput`;
* `src/MovieDatabaseAPI.js` — the envelope split inside `get`;
* `src/resolvers.js` — `_getDetailField`;
* `src/datasources/MovieDatabaseV3.js` — `getGenresById`, `updateRating`,
  `addToWatchlistOrFavorites`;
* `src/datasources/MovieDatabaseV4.js` — `updateList`.

JavaScript values are embedded as the inductive `JsValue`; objects are
association lists in property-insertion order, mirroring the ordered
own-property semantics that `Object.entries`, spread and rest patterns use.

The repository's string transforms are built on two third-party libraries
that are not part of the repository: `lodash` (`snakeCase`, i.e. `words`
plus lowercasing) and `camelcase` v5 (used by `camelcase-keys` v5).  Both
are embedded here at the level of character lists, over the ASCII
character classes that property keys use (letters, digits and the
separator characters `_ . -` and space).  Documented deviations from the
real libraries:

* `lodash.words` is modelled without its Unicode categories (non-ASCII
  characters count as non-word characters) and without its ordinal-number
  tokens (`1st`, `2ND`, …).  The ordinal omission is observable on keys
  that mix digits and letters inside one token: real
  `lodash.snakeCase('AB1STc')` is `ab_1st_c`, while the model gives
  `ab_1_s_tc` — and on such keys the real REST/GraphQL round trip
  (claim C9) genuinely fails, e.g. `toGraphqlKey(toRestKey('AB1STc'))`
  is `ab1StC` while `camelCase('AB1STc')` is `ab1STc`.  The C9
  round-trip theorem below therefore restricts its keys to digit-free
  ones; no ordinal token can occur without a digit, so on that domain
  the model tokenizes exactly as the real library.  The idempotence and
  operator-suffix theorems (C1, C5) are not affected by the omission:
  idempotence only needs that snake-cased output re-tokenizes stably,
  which holds with and without ordinal tokens, and the operator
  suffixes are pure-letter tokens;
* `camelcase` v5's `preserveCamelCase` performs its in-place insertion
  with an index walk that re-reads the current character once after the
  second kind of insertion; that re-read only recomputes the state flags
  to values that cannot change any later decision, and is collapsed here
  into a single step (the remark is proved informally in the comment at
  the definition);
* JavaScript `toLowerCase`/`toUpperCase` are modelled on ASCII letters
  only, and number-to-string coercion of the template literal in
  `transformSortByInput` is not modelled faithfully for non-string
  values (every theorem below supplies string values there).
-/

namespace GMDB

/-! ## JavaScript values and objects -/

/-- A JavaScript value: `undefined`, `null`, booleans, numbers (modelled as
rationals), strings, arrays and plain objects.  An object is its list of
own enumerable properties in insertion order. -/
inductive JsValue where
  | undef : JsValue
  | null : JsValue
  | bool : Bool → JsValue
  | num : ℚ → JsValue
  | str : String → JsValue
  | arr : List JsValue → JsValue
  | obj : List (String × JsValue) → JsValue
  deriving Repr

/-- Object bodies: ordered association lists of properties. -/
abbrev JsObj := List (String × JsValue)

/-- JavaScript truthiness (`Boolean(v)`).  `NaN` is not modelled. -/
def JsValue.truthy : JsValue → Bool
  | .undef => false
  | .null => false
  | .bool b => b
  | .num q => !(q == 0)
  | .str s => !(s == "")
  | .arr _ => true
  | .obj _ => true

/-- Property read `o[k]` on an object body: first binding wins, missing
properties read as `undefined`. -/
def getKey (o : JsObj) (k : String) : JsValue :=
  match o.find? (fun p => p.1 == k) with
  | some p => p.2
  | none => JsValue.undef

/-- Whether the object body has an own property named `k`. -/
def hasKey (o : JsObj) (k : String) : Bool :=
  o.any (fun p => p.1 == k)

/-- `{ ...o, [k]: v }`: override the binding in place if the key exists,
otherwise append it. -/
def setKey (o : JsObj) (k : String) (v : JsValue) : JsObj :=
  if hasKey o k then o.map (fun p => if p.1 == k then (k, v) else p)
  else o ++ [(k, v)]

/-- Rest pattern `{ k₁, k₂, ...rest } = o`: every property except the named
ones, order preserved. -/
def dropKeys (o : JsObj) (ks : List String) : JsObj :=
  o.filter (fun p => !(ks.contains p.1))

/-- Strict equality `===` between the embedded values.  Two distinct array
or object literals are never strictly equal in JavaScript (reference
semantics); the model conservatively returns `false` for them. -/
def strictEq : JsValue → JsValue → Bool
  | .undef, .undef => true
  | .null, .null => true
  | .bool a, .bool b => a == b
  | .num a, .num b => a == b
  | .str a, .str b => a == b
  | _, _ => false

/-! ## The lodash word model

`lodash.snakeCase(s)` is `words(s.replace(/['’]/g, ''))`, lowercased
and joined with `_`.  For ASCII input — and without the ordinal-number
tokens, the deviation discussed in the header, which cannot arise on
digit-free input — `lodash.words` tokenizes as follows, scanning left
to right:

* a lowercase letter starts a maximal lowercase run;
* a digit starts a maximal digit run;
* an uppercase letter starts a maximal uppercase run `U`; if `U` has at
  least two letters and is followed by a lowercase letter, the last letter
  of `U` instead begins the next (capitalized) token, e.g.
  `FOOBar ↦ FOO, Bar`; a single uppercase letter followed by lowercase
  letters forms one capitalized token;
* every other character separates tokens and is dropped.
-/

/-- ASCII word characters (letters and digits). -/
def wordChar (c : Char) : Bool := c.isUpper || c.isLower || c.isDigit

/--
Single-pass scanner behind the `lodash.words` model.  `cur` is the token
being built, in reverse; the class of `cur`'s head (the most recently
consumed character) determines the mode.  The acronym rule uses one
character of lookahead: while extending an uppercase run, an uppercase
character followed by a lowercase one closes the run and begins the next
(capitalized) token, so `FOOBar` yields `FOO, Bar`.
-/
def lwGo : List Char → List Char → List (List Char)
  | cur, [] => if cur.isEmpty then [] else [cur.reverse]
  | cur, c :: cs =>
    match cur with
    | [] =>
      if wordChar c then lwGo [c] cs else lwGo [] cs
    | p :: _ =>
      if c.isLower then
        if p.isLower || p.isUpper then lwGo (c :: cur) cs
        else cur.reverse :: lwGo [c] cs
      else if c.isUpper then
        if p.isUpper then
          match cs with
          | d :: _ =>
            if d.isLower then cur.reverse :: lwGo [c] cs
            else lwGo (c :: cur) cs
          | [] => lwGo (c :: cur) cs
        else cur.reverse :: lwGo [c] cs
      else if c.isDigit then
        if p.isDigit then lwGo (c :: cur) cs
        else cur.reverse :: lwGo [c] cs
      else cur.reverse :: lwGo [] cs

/-- The lodash `words` tokenizer (ASCII model, see the section comment). -/
def lwords (cs : List Char) : List (List Char) := lwGo [] cs

/-- The apostrophe removal `s.replace(/['’]/g, '')` that
`lodash.snakeCase` performs before tokenizing. -/
def removeApostrophes (cs : List Char) : List Char :=
  cs.filter (fun c => !(c == '\'') && !(c == '’'))

/-- `lodash.snakeCase` on character lists: tokenize, lowercase each token,
join with underscores. -/
def lodashSnakeCase (cs : List Char) : List Char :=
  List.intercalate ['_'] ((lwords (removeApostrophes cs)).map (·.map Char.toLower))

/-- String-level `lodash.snakeCase`. -/
def lodashSnakeCaseS (s : String) : String := ⟨lodashSnakeCase s.data⟩

/-! ## `src/utils/camelCase.js` and revisions -/

/-- Split on a separator character, mirroring JavaScript
`String.prototype.split` with a one-character separator (so the empty
string yields `[[]]`, and adjacent separators yield empty fields). -/
def splitSep (sep : Char) : List Char → List (List Char)
  | [] => [[]]
  | c :: cs =>
    if c = sep then [] :: splitSep sep cs
    else
      match splitSep sep cs with
      | t :: ts => (c :: t) :: ts
      | [] => [[c]]

/--
`deCamelCaseKey` from `src/utils/camelCase.js` (the same code is the
string case of `deCamelCase` in `part_003`):

    key.split('_').map(snakeCase).join('.')
-/
def deCamelCaseKey (cs : List Char) : List Char :=
  List.intercalate ['.'] ((splitSep '_' cs).map lodashSnakeCase)

/-- String-level `deCamelCaseKey`. -/
def deCamelCaseKeyS (s : String) : String := ⟨deCamelCaseKey s.data⟩

/--
The fixed `snakeCase` of `src/unnamed/part_005`:

    _snakeCase(str).replace(/_(gte|lte|desc|asc)$/, (_, m) => `.${m}`)

The anchored replacement: if the snake-cased string ends in `_gte`,
`_lte`, `_desc` or `_asc`, the final underscore becomes a dot.
-/
def opSuffixFix (cs : List Char) : List Char :=
  if "_gte".data.isSuffixOf cs then cs.take (cs.length - 4) ++ ".gte".data
  else if "_lte".data.isSuffixOf cs then cs.take (cs.length - 4) ++ ".lte".data
  else if "_desc".data.isSuffixOf cs then cs.take (cs.length - 5) ++ ".desc".data
  else if "_asc".data.isSuffixOf cs then cs.take (cs.length - 4) ++ ".asc".data
  else cs

/-- `snakeCase` from `part_005` (the revision whose doc comment records the
idempotence fix). -/
def snakeCase005 (cs : List Char) : List Char :=
  opSuffixFix (lodashSnakeCase cs)

/-- String-level `snakeCase005`. -/
def snakeCase005S (s : String) : String := ⟨snakeCase005 s.data⟩

/--
`transformEnumValue` from `src/utils/camelCase.js`:

    value.split('__').map(snakeCase).join('.')

applied to string values only (`isString` guard).
-/
def transformEnumValue (v : JsValue) : JsValue :=
  match v with
  | .str s => .str (String.intercalate "." ((s.splitOn "__").map lodashSnakeCaseS))
  | v => v

/--
One step of the `reduce` in both revisions of `deCamelCaseArgs`:
`{ ...result, [deCamelCaseKey(key)]: value }` with the already-transformed
value. -/
def dcStep (acc : JsObj) (k : String) (v : JsValue) : JsObj :=
  setKey acc (deCamelCaseKeyS k) v

/-- The `reduce` of `deCamelCaseArgs` over a string's indexed entries
(one-character string values are never plain objects, so no recursion). -/
def dcStrEntries : List Char → Nat → JsObj → JsObj
  | [], _, acc => acc
  | c :: rest, i, acc =>
    dcStrEntries rest (i + 1) (dcStep acc (toString i) (.str ⟨[c]⟩))

mutual
/--
`deCamelCaseArgs` from `src/utils/camelCase.js`:

    if (!args) return null
    return Object.entries(args).reduce((result, [key, value]) => {
      if (isPlainObject(value)) value = deCamelCaseArgs(value)
      else if (key === 'sortBy') value = transformEnumValue(value)
      return { ...result, [deCamelCaseKey(key)]: value }
    }, {})

`Object.entries` of a truthy non-object gives the indexed elements for
arrays and strings and no entries for other primitives; the three truthy
shapes are iterated by the three workers below.
-/
def deCamelCaseArgs (args : JsValue) : JsValue :=
  if !args.truthy then .null
  else
    match args with
    | .obj fields => .obj (dcObjEntries fields [])
    | .arr xs => .obj (dcArrEntries xs 0 [])
    | .str s => .obj (dcStrEntries s.data 0 [])
    | _ => .obj []

/-- The `reduce` of `deCamelCaseArgs` over an object's entries. -/
def dcObjEntries : List (String × JsValue) → JsObj → JsObj
  | [], acc => acc
  | (k, v) :: rest, acc =>
    match v with
    | .obj fields =>
      dcObjEntries rest (dcStep acc k (deCamelCaseArgs (.obj fields)))
    | v =>
      dcObjEntries rest
        (dcStep acc k (if k == "sortBy" then transformEnumValue v else v))

/-- The `reduce` of `deCamelCaseArgs` over an array's indexed entries. -/
def dcArrEntries : List JsValue → Nat → JsObj → JsObj
  | [], _, acc => acc
  | v :: rest, i, acc =>
    match v with
    | .obj fields =>
      dcArrEntries rest (i + 1) (dcStep acc (toString i) (deCamelCaseArgs (.obj fields)))
    | v => dcArrEntries rest (i + 1) (dcStep acc (toString i) v)
end

mutual
/--
`deCamelCaseArgs` from `src/unnamed/part_003`:

    return Object.keys(args).reduce((r, k) => {
      let value = isPlainObject(args[k]) ? deCamelCaseArgs(args[k]) : args[k]
      if (k === 'sortBy') value = deCamelCase(value)
      return { ...r, [deCamelCase(k)]: value }
    }, {})

There is no null guard: `Object.keys(null)` (or of `undefined`) throws a
`TypeError`, modelled as the error case.  (`deCamelCase` in `part_003` is
the same `split('_').map(snakeCase).join('.')` transform as
`deCamelCaseKey`, with non-strings passed through; note that in this
revision a string-valued `sortBy` goes through `deCamelCase`, not
`transformEnumValue`.)
-/
def deCamelCaseArgs003 (args : JsValue) : Except String JsValue :=
  match args with
  | .null => .error "TypeError: Cannot convert undefined or null to object"
  | .undef => .error "TypeError: Cannot convert undefined or null to object"
  | .obj fields => .ok (.obj (dcObjEntries003 fields []))
  | .arr xs => .ok (.obj (dcArrEntries003 xs 0 []))
  | .str s => .ok (.obj (dcStrEntries s.data 0 []))
  | _ => .ok (.obj [])

/-- The `reduce` of the `part_003` `deCamelCaseArgs` over object entries. -/
def dcObjEntries003 : List (String × JsValue) → JsObj → JsObj
  | [], acc => acc
  | (k, v) :: rest, acc =>
    match v with
    | .obj fields =>
      let v₀ := match deCamelCaseArgs003 (.obj fields) with
        | .ok v' => v'
        | .error _ => .undef
      dcObjEntries003 rest (dcStep acc k v₀)
    | .str s =>
      dcObjEntries003 rest
        (dcStep acc k (if k == "sortBy" then .str (deCamelCaseKeyS s) else .str s))
    | v => dcObjEntries003 rest (dcStep acc k v)

/-- The `reduce` of the `part_003` `deCamelCaseArgs` over array entries. -/
def dcArrEntries003 : List JsValue → Nat → JsObj → JsObj
  | [], _, acc => acc
  | v :: rest, i, acc =>
    match v with
    | .obj fields =>
      let v₀ := match deCamelCaseArgs003 (.obj fields) with
        | .ok v' => v'
        | .error _ => .undef
      dcArrEntries003 rest (i + 1) (dcStep acc (toString i) v₀)
    | v => dcArrEntries003 rest (i + 1) (dcStep acc (toString i) v)
end

/-! ## The camelcase v5 model

`camelcase-keys` v5 (a direct dependency) converts response keys with the
`camelcase` package v5.  Its pipeline on a string `input`:

    input = input.trim();
    if (input.length === 0) return '';
    if (input.length === 1) return input.toLowerCase();
    if (input !== input.toLowerCase()) input = preserveCamelCase(input);
    return input
      .replace(/^[_.\- ]+/, '')
      .toLowerCase()
      .replace(/[_.\- ]+(\w|$)/g, (_, p1) => p1.toUpperCase())
      .replace(/\d+(\w|$)/g, m => m.toUpperCase());

`preserveCamelCase` walks the string with three flags (was the previous
character a lowercase letter / an uppercase letter / was the one before
that uppercase) and inserts `-` before an uppercase letter that follows a
lowercase one, and before the last letter of an uppercase run that is
followed by a lowercase letter.  In the second case the original performs
an in-place insertion at `i - 1` without advancing `i`, so the loop reads
the current (lowercase) character a second time; that second read can
trigger neither insertion branch (the character is not uppercase, and the
just-updated upper flag is false) and merely recomputes the flags to
lower = true, upper = false, lastLastUpper = false — exactly the state the
collapsed single step below produces.
-/

/-- JavaScript string whitespace for `trim` (ASCII part). -/
def isJsSpace (c : Char) : Bool :=
  c == ' ' || c == '\t' || c == '\n' || c == '\r' || c == '\x0b' || c == '\x0c'

/-- `String.prototype.trim`. -/
def jsTrim (cs : List Char) : List Char :=
  ((cs.dropWhile isJsSpace).reverse.dropWhile isJsSpace).reverse

/-- The separator class `[_.\- ]` of the camelcase package. -/
def isSep (c : Char) : Bool := c == '_' || c == '.' || c == '-' || c == ' '

/-- The walk of `preserveCamelCase`.  The three flags mirror
`isLastCharLower`, `isLastCharUpper`, `isLastLastCharUpper`; `pend` is
the previously read character, not yet committed to the output, so that
the second insertion branch can place its `-` *before* that character
(the in-place `string.slice(0, i - 1) + '-' + string.slice(i - 1)` of
the original). -/
def pcF : Bool → Bool → Bool → Option Char → List Char → List Char
  | _, _, _, pend, [] => pend.toList
  | lastLower, lastUpper, lastLast, pend, c :: cs =>
    if lastLower && c.isUpper then
      pend.toList ++ '-' :: pcF false true lastUpper (some c) cs
    else if lastUpper && lastLast && c.isLower then
      '-' :: pend.toList ++ pcF true false false (some c) cs
    else
      pend.toList ++ pcF c.isLower c.isUpper lastUpper (some c) cs

/-- `preserveCamelCase` of the camelcase package (see section comment). -/
def preserveCamelCase (cs : List Char) : List Char := pcF false false false none cs

/-- The separator replacement `/[_.\- ]+(\w|$)/g ↦ p1.toUpperCase()`:
each separator run followed by a word character is replaced by that
character uppercased; a separator run at the end of the string is
deleted; a run followed by a non-word character stays (no match). -/
def srGo (pend : List Char) : List Char → List Char
  | [] => []
  | c :: cs =>
    if isSep c then srGo (c :: pend) cs
    else if pend.isEmpty then c :: srGo [] cs
    else if wordChar c then c.toUpper :: srGo [] cs
    else pend.reverse ++ c :: srGo [] cs

/-- Entry point of the separator replacement. -/
def sepReplace (cs : List Char) : List Char := srGo [] cs

/-- The digit replacement `/\d+(\w|$)/g ↦ m.toUpperCase()`: digits are
unchanged by uppercasing, so the effect is to uppercase each character
that immediately follows a digit. -/
def digitFixGo (prevDigit : Bool) : List Char → List Char
  | [] => []
  | c :: cs => (if prevDigit then c.toUpper else c) :: digitFixGo c.isDigit cs

/-- Entry point of the digit replacement. -/
def digitFix (cs : List Char) : List Char := digitFixGo false cs

/-- The camelcase v5 transform (see section comment); this is the per-key
transform that `camelCaseKeys` in `src/utils/camelCase.js` applies to
every non-excluded response key. -/
def camelCaseV5 (cs : List Char) : List Char :=
  let t := jsTrim cs
  if t.length == 0 then []
  else if t.length == 1 then t.map Char.toLower
  else
    let t1 := if !(t == t.map Char.toLower) then preserveCamelCase t else t
    digitFix (sepReplace ((t1.dropWhile isSep).map Char.toLower))

/-- String-level camelcase v5. -/
def camelCaseV5S (s : String) : String := ⟨camelCaseV5 s.data⟩

/-! ## Datasource operations -/

/-- JavaScript string coercion for template literals, faithful for the
string/boolean/null/undefined cases; numeric (and array/object) printing
is not modelled faithfully and no theorem below relies on it. -/
def jsToString : JsValue → String
  | .str s => s
  | .null => "null"
  | .undef => "undefined"
  | .bool true => "true"
  | .bool false => "false"
  | .num q => toString q
  | .arr _ => ""
  | .obj _ => "[object Object]"

/-- `String.prototype.toLowerCase` (ASCII model). -/
def jsToLower (s : String) : String := ⟨s.data.map Char.toLower⟩

/--
`transformSortByInput` from `src/datasources/MovieDatabase.js`:

    const { sortBy: sortByValue, sortOrder = 'DESC', ...otherParams } = params
    if (sortByValue == null) return otherParams
    const substitutions = {
      DATE_ADDED: 'CREATED_AT',
      TITLE: mediaType === 'TV' ? 'NAME' : 'TITLE',
      RELEASE_DATE: mediaType === 'TV' ? 'FIRST_AIR_DATE' : 'RELEASE_DATE'
    }
    const sortBy = substitutions[sortByValue] || sortByValue
    return { ...otherParams, sortBy: `${sortBy}.${sortOrder}`.toLowerCase() }

The destructuring default applies only when `sortOrder` is `undefined`;
`sortByValue == null` is loose equality, true exactly for `null` and
`undefined`; the `substitutions` lookup coerces its key to a string, and
all three table entries are truthy, so `||` falls back to the original
value only outside the table.
-/
def transformSortByInput (params : JsObj) (mediaType : String := "") : JsObj :=
  let sortByValue := getKey params "sortBy"
  let sortOrder := match getKey params "sortOrder" with
    | .undef => JsValue.str "DESC"
    | v => v
  let otherParams := dropKeys params ["sortBy", "sortOrder"]
  match sortByValue with
  | .undef => otherParams
  | .null => otherParams
  | sortByValue =>
    let key := jsToString sortByValue
    let sortBy : JsValue :=
      if key == "DATE_ADDED" then .str "CREATED_AT"
      else if key == "TITLE" then
        .str (if mediaType == "TV" then "NAME" else "TITLE")
      else if key == "RELEASE_DATE" then
        .str (if mediaType == "TV" then "FIRST_AIR_DATE" else "RELEASE_DATE")
      else sortByValue
    setKey otherParams "sortBy"
      (.str (jsToLower (jsToString sortBy ++ "." ++ jsToString sortOrder)))

/--
The envelope step of `MovieDatabaseAPI.prototype.get`
(`src/MovieDatabaseAPI.js`), applied to the already-normalized
(camelCased) response:

    if (!response.results) return response
    const { results, ...meta } = response
    return { results, meta }
-/
def mdbGet (response : JsObj) : JsValue :=
  if !(getKey response "results").truthy then .obj response
  else
    .obj [("results", getKey response "results"),
          ("meta", .obj (dropKeys response ["results"]))]

/--
`_getDetailField` from `src/resolvers.js`:

    if (parent[field]) return parent[field]
    const data = await movieDatabaseV3[`get${typename}`](parent)
    return data[field]

`fetched` is the response the single detail request would return; the
second component counts how many times that request is issued.
-/
def getDetailField (field : String) (parent : JsObj) (fetched : JsObj) :
    JsValue × Nat :=
  if (getKey parent field).truthy then (getKey parent field, 0)
  else (getKey fetched field, 1)

/-- The `genres.find(genre => genre.id === id)` lookup inside
`getGenresById`; `Array.prototype.find` yields `undefined` when no
element matches.  (Reading `.id` of a non-object would throw in
JavaScript; the theorems below restrict the genre list to objects.) -/
def genreLookup (genres : List JsValue) (id : JsValue) : JsValue :=
  match genres.find? (fun g =>
      strictEq (match g with | .obj f => getKey f "id" | _ => .undef) id) with
  | some g => g
  | none => JsValue.undef

/--
`getGenresById` from `src/datasources/MovieDatabaseV3.js`, with the
fetched genre list supplied as a parameter:

    return ids
      .map(id => genres.find(genre => genre.id === id))
      .filter(genre => genre !== null)
-/
def getGenresById (genres : List JsValue) (ids : List JsValue) :
    List JsValue :=
  (ids.map (genreLookup genres)).filter (fun g => !(strictEq g .null))

/-- An upstream failure: `error.message` together with
`get(error, 'extensions.response.body.statusMessage')` (which reads as
`undefined` when the path is missing). -/
structure JsError where
  message : String
  statusMessage : JsValue

/--
`updateRating` from `src/datasources/MovieDatabaseV3.js`:

    try {
      await this.convertV4TokenToSessionID()
      ...
      const { statusMessage } = await this[method](URL, body)
      return { success: true, message: statusMessage }
    } catch (error) {
      const message = get(error, 'extensions.response.body.statusMessage')
      return { message: message || error.message }
    }

The two fallible steps (session conversion and the REST call) are the two
`Except` parameters.
-/
def updateRating (convert : Except JsError Unit)
    (restCall : Except JsError JsObj) : JsObj :=
  match convert with
  | .error e =>
    [("message", if e.statusMessage.truthy then e.statusMessage else .str e.message)]
  | .ok _ =>
    match restCall with
    | .error e =>
      [("message", if e.statusMessage.truthy then e.statusMessage else .str e.message)]
    | .ok resp => [("success", .bool true), ("message", getKey resp "statusMessage")]

/--
`addToWatchlistOrFavorites` from `src/datasources/MovieDatabaseV3.js`:

    try {
      await this.convertV4TokenToSessionID()
      ...
      const { statusMessage } = await this.post(URL, body)
      return { success: true, message: statusMessage }
    } catch (error) {
      return { message: error.message }
    }
-/
def addToWatchlistOrFavorites (convert : Except JsError Unit)
    (restCall : Except JsError JsObj) : JsObj :=
  match convert with
  | .error e => [("message", .str e.message)]
  | .ok _ =>
    match restCall with
    | .error e => [("message", .str e.message)]
    | .ok resp => [("success", .bool true), ("message", getKey resp "statusMessage")]

/--
`updateList` from `src/datasources/MovieDatabaseV4.js`:

    try {
      const body = this.transformSortByInput(input)
      const response = await this.put(`/list/${id}`, body)
      if (response.success) {
        return { ...response, message: 'List was updated successfully.' }
      }
    } catch (error) {
      return { success: false, message: error.message }
    }

A successful call whose response has falsy `success` falls off the end of
the function (`undefined`).
-/
def updateList (restCall : Except JsError JsObj) : JsValue :=
  match restCall with
  | .error e => .obj [("success", .bool false), ("message", .str e.message)]
  | .ok resp =>
    if (getKey resp "success").truthy then
      .obj (setKey resp "message" (.str "List was updated successfully."))
    else JsValue.undef

/-! ## Notions used to state the word-level properties -/

/-- Uppercase the first character of a token (`toUpperCase` of the
captured group in the camelcase pipeline). -/
def capFirst : List Char → List Char
  | [] => []
  | c :: cs => c.toUpper :: cs

/-- The camelCase rendering of a token list: the first token verbatim,
every later token with its first character uppercased. -/
def renderTokens : List (List Char) → List Char
  | [] => []
  | t :: rest => t ++ (rest.map capFirst).flatten

/-- Rendering of a token list in a position where even the first token is
capitalized (it follows a separator run in the original string). -/
def renderCap (ts : List (List Char)) : List Char :=
  (ts.map capFirst).flatten

/-- The ASCII key alphabet: alphanumerics plus the separators
`_ . -` and space. -/
def keyChar (c : Char) : Bool := wordChar c || isSep c

/-- The camelCase output still to come once `k` characters of the first
token have already been emitted: the rest of the first token, then every
later token capitalized. -/
def tokTail (k : Nat) : List (List Char) → List Char
  | [] => []
  | t :: rest => t.drop k ++ (rest.map capFirst).flatten

/-- A plain token: nonempty and either all lowercase letters or all
digits. -/
def plainTok (t : List Char) : Prop :=
  t ≠ [] ∧ ((∀ c ∈ t, c.isLower = true) ∨ (∀ c ∈ t, c.isDigit = true))

/-- A raw token as produced by the tokenizer: nonempty, and lowercasing
it yields a plain token. -/
def rawTok (t : List Char) : Prop :=
  t ≠ [] ∧ ((∀ c ∈ t, (Char.toLower c).isLower = true) ∨ (∀ c ∈ t, c.isDigit = true))

/-- The invariant the scanner maintains on its current token (reversed):
empty, or all letters (once lowercased), or all digits. -/
def curInv (cur : List Char) : Prop :=
  cur = [] ∨ (∀ c ∈ cur, (Char.toLower c).isLower = true) ∨
    (∀ c ∈ cur, c.isDigit = true)

/-! ## Object lemmas -/

theorem getKey_cons (p : String × JsValue) (o : JsObj) (k : String) :
    getKey (p :: o) k = if p.1 = k then p.2 else getKey o k := by
  by_cases h : p.1 = k <;> simp [getKey, List.find?_cons, h]

theorem hasKey_cons (p : String × JsValue) (o : JsObj) (k : String) :
    hasKey (p :: o) k = (decide (p.1 = k) || hasKey o k) := by
  by_cases h : p.1 = k <;> simp [hasKey, h]

theorem dropKeys_nil (ks : List String) : dropKeys [] ks = [] := rfl

theorem dropKeys_cons (p : String × JsValue) (o : JsObj) (ks : List String) :
    dropKeys (p :: o) ks =
      if p.1 ∈ ks then dropKeys o ks else p :: dropKeys o ks := by
  by_cases hp : p.1 ∈ ks <;> simp [dropKeys, List.filter_cons, hp]

theorem getKey_append_left_undef (o rest : JsObj) (k : String)
    (h : hasKey o k = false) : getKey (o ++ rest) k = getKey rest k := by
  induction o with
  | nil => simp
  | cons p o ih =>
    rw [hasKey_cons] at h
    simp only [Bool.or_eq_false_iff, decide_eq_false_iff_not] at h
    rw [List.cons_append, getKey_cons, if_neg h.1]
    exact ih h.2

theorem getKey_replace_same (o : JsObj) (k : String) (v : JsValue)
    (h : hasKey o k = true) :
    getKey (o.map (fun p => if p.1 == k then (k, v) else p)) k = v := by
  induction o with
  | nil => simp [hasKey] at h
  | cons p o ih =>
    rw [List.map_cons]
    by_cases hp : p.1 = k
    · rw [if_pos (by simp [hp]), getKey_cons, if_pos rfl]
    · rw [if_neg (by simp [hp]), getKey_cons, if_neg hp]
      rw [hasKey_cons] at h
      simp only [hp, decide_eq_true_eq, Bool.false_or, false_or,
        decide_eq_false_iff_not] at h
      exact ih (by simpa using h)

theorem getKey_replace_other (o : JsObj) (k k' : String) (v : JsValue)
    (hne : k' ≠ k) :
    getKey (o.map (fun p => if p.1 == k then (k, v) else p)) k' = getKey o k' := by
  induction o with
  | nil => simp [getKey]
  | cons p o ih =>
    rw [List.map_cons]
    by_cases hp : p.1 = k
    · rw [if_pos (by simp [hp]), getKey_cons, getKey_cons,
        if_neg (Ne.symm hne), if_neg (by rw [hp]; exact fun he => hne he.symm), ih]
    · rw [if_neg (by simp [hp]), getKey_cons, getKey_cons, ih]

theorem getKey_setKey_same (o : JsObj) (k : String) (v : JsValue) :
    getKey (setKey o k v) k = v := by
  unfold setKey
  by_cases h : hasKey o k
  · rw [if_pos h]
    exact getKey_replace_same o k v (by simpa using h)
  · rw [if_neg h, getKey_append_left_undef o _ k (by simpa using h)]
    simp [getKey]

theorem getKey_setKey_other (o : JsObj) (k k' : String) (v : JsValue)
    (hne : k' ≠ k) : getKey (setKey o k v) k' = getKey o k' := by
  unfold setKey
  by_cases h : hasKey o k
  · rw [if_pos h]
    exact getKey_replace_other o k k' v hne
  · rw [if_neg h]
    induction o with
    | nil => simp [getKey, hne, Ne.symm hne]
    | cons p o ih =>
      have ho : ¬hasKey o k = true := by
        intro hbad
        exact h (by rw [hasKey_cons, hbad]; simp)
      rw [List.cons_append, getKey_cons, getKey_cons]
      by_cases hp : p.1 = k' <;> simp [hp, ih ho]

theorem getKey_eq_undef_of_hasKey_eq_false (o : JsObj) (k : String)
    (h : hasKey o k = false) : getKey o k = .undef := by
  induction o with
  | nil => simp [getKey]
  | cons p o ih =>
    rw [hasKey_cons] at h
    simp only [Bool.or_eq_false_iff, decide_eq_false_iff_not] at h
    rw [getKey_cons, if_neg h.1]
    exact ih h.2

theorem getKey_dropKeys_of_not_mem (o : JsObj) (ks : List String) (k : String)
    (h : k ∉ ks) : getKey (dropKeys o ks) k = getKey o k := by
  induction o with
  | nil => rw [dropKeys_nil]
  | cons p o ih =>
    rw [dropKeys_cons]
    by_cases hp : p.1 ∈ ks
    · have hne : p.1 ≠ k := fun he => h (he ▸ hp)
      rw [if_pos hp, getKey_cons, if_neg hne, ih]
    · rw [if_neg hp, getKey_cons, getKey_cons, ih]

theorem hasKey_dropKeys_of_mem (o : JsObj) (ks : List String) (k : String)
    (h : k ∈ ks) : hasKey (dropKeys o ks) k = false := by
  induction o with
  | nil => rw [dropKeys_nil]; rfl
  | cons p o ih =>
    rw [dropKeys_cons]
    by_cases hp : p.1 ∈ ks
    · rw [if_pos hp]; exact ih
    · have hne : p.1 ≠ k := fun he => hp (he ▸ h)
      rw [if_neg hp, hasKey_cons, ih]
      simp [hne]

/-! ## Claim theorems: sort translator, detail fields, envelope, mutations -/

/-- **C2.** With `sortBy` present (a string) and `sortOrder` a string, the
sort translator applies the fixed substitution table — `DATE_ADDED ↦
CREATED_AT` unconditionally, `TITLE ↦ NAME` and `RELEASE_DATE ↦
FIRST_AIR_DATE` exactly when the media type is `"TV"` — and emits the
lower-cased `"{substituted_field}.{order}"` string under the `sortBy`
key; in particular `(RELEASE_DATE, DESC, TV) ↦ "first_air_date.desc"`,
`(RELEASE_DATE, DESC, MOVIE) ↦ "release_date.desc"`, `(TITLE, ASC, TV) ↦
"name.asc"` and `(TITLE, ASC, MOVIE) ↦ "title.asc"`. -/
theorem transformSortByInput_substitution (params : JsObj) (mt sb so : String)
    (h1 : getKey params "sortBy" = .str sb)
    (h2 : getKey params "sortOrder" = .str so) :
    getKey (transformSortByInput params mt) "sortBy" =
      .str (jsToLower ((if sb = "DATE_ADDED" then "CREATED_AT"
        else if sb = "TITLE" then (if mt = "TV" then "NAME" else "TITLE")
        else if sb = "RELEASE_DATE" then
          (if mt = "TV" then "FIRST_AIR_DATE" else "RELEASE_DATE")
        else sb) ++ "." ++ so)) := by
  simp only [transformSortByInput, h1, h2]
  rw [getKey_setKey_same]
  by_cases e1 : sb = "DATE_ADDED" <;> by_cases e2 : sb = "TITLE" <;>
    by_cases e3 : sb = "RELEASE_DATE" <;> by_cases em : mt = "TV" <;>
    simp [e1, e2, e3, em, jsToString]

/-- Witness for C2: `(RELEASE_DATE, DESC, TV)` yields
`"first_air_date.desc"`. -/
theorem transformSortByInput_substitution_witness :
    getKey (transformSortByInput
      [("sortBy", .str "RELEASE_DATE"), ("sortOrder", .str "DESC")] "TV")
      "sortBy" = .str "first_air_date.desc" := by
  have h := transformSortByInput_substitution
    [("sortBy", .str "RELEASE_DATE"), ("sortOrder", .str "DESC")]
    "TV" "RELEASE_DATE" "DESC" (by rfl) (by rfl)
  rw [h]
  rfl

/-- **C3.** The detail-field resolver returns the entity's own field with
zero fetches when that field is non-falsy, and otherwise issues exactly
one fetch and returns the field extracted from the fetched response. -/
theorem getDetailField_cached_or_single_fetch (field : String)
    (parent fetched : JsObj) :
    ((getKey parent field).truthy = true →
      getDetailField field parent fetched = (getKey parent field, 0)) ∧
    ((getKey parent field).truthy = false →
      getDetailField field parent fetched = (getKey fetched field, 1)) := by
  constructor
  · intro h
    simp [getDetailField, h]
  · intro h
    simp [getDetailField, h]

/-- Witness for C3: an entity with embedded `credits` is served with zero
fetches; an entity without them triggers exactly one fetch. -/
theorem getDetailField_cached_or_single_fetch_witness :
    getDetailField "credits" [("credits", .str "c")] [] = (.str "c", 0) ∧
    getDetailField "credits" [("id", .num 1)] [("credits", .str "c")] =
      (.str "c", 1) :=
  ⟨(getDetailField_cached_or_single_fetch "credits" [("credits", .str "c")] []).1
      (by rfl),
   (getDetailField_cached_or_single_fetch "credits" [("id", .num 1)]
      [("credits", .str "c")]).2 (by rfl)⟩

/-- **C4, counterexample.** Presence of the `results` key is *not* the
test the splitter uses: on `{ results: null, page: 1 }` — which has a
`results` key — the response is returned unchanged (no `meta` is
produced), because the code tests the truthiness of `response.results`,
not the key's presence. -/
theorem mdbGet_truthiness_counterexample :
    hasKey [("results", JsValue.null), ("page", JsValue.num 1)] "results" = true ∧
    mdbGet [("results", JsValue.null), ("page", JsValue.num 1)] =
      .obj [("results", JsValue.null), ("page", JsValue.num 1)] ∧
    hasKey [("results", JsValue.null), ("page", JsValue.num 1)] "meta" = false :=
  ⟨by decide, by rfl, by decide⟩

/-- **C4, amended.** The splitter keys on the truthiness of
`response.results`: a response without a `results` key (and more
generally with a falsy `results` value) is returned unchanged, and when
`results` is truthy the result is `{ results, meta }` where `meta` holds
exactly every key of the input other than `results`. -/
theorem mdbGet_envelope_spec (response : JsObj) :
    (hasKey response "results" = false → mdbGet response = .obj response) ∧
    ((getKey response "results").truthy = false →
      mdbGet response = .obj response) ∧
    ((getKey response "results").truthy = true →
      mdbGet response =
        .obj [("results", getKey response "results"),
              ("meta", .obj (dropKeys response ["results"]))] ∧
      hasKey (dropKeys response ["results"]) "results" = false ∧
      ∀ k, k ≠ "results" →
        getKey (dropKeys response ["results"]) k = getKey response k) := by
  refine ⟨?_, ?_, ?_⟩
  · intro h
    have := getKey_eq_undef_of_hasKey_eq_false response "results" h
    simp [mdbGet, this, JsValue.truthy]
  · intro h
    simp [mdbGet, h]
  · intro h
    refine ⟨by simp [mdbGet, h], hasKey_dropKeys_of_mem _ _ _ (by simp), ?_⟩
    intro k hk
    exact getKey_dropKeys_of_not_mem _ _ _ (by simpa using hk)

/-- Witness for C4 (amended): a single-item response passes through; a
truthy list response is split with `page`/`totalResults` moved to `meta`. -/
theorem mdbGet_envelope_spec_witness :
    mdbGet [("id", .num 5), ("title", .str "X")] =
      .obj [("id", .num 5), ("title", .str "X")] ∧
    mdbGet [("results", .arr [.num 1]), ("page", .num 1),
            ("totalResults", .num 20)] =
      .obj [("results", .arr [.num 1]),
            ("meta", .obj [("page", .num 1), ("totalResults", .num 20)])] :=
  ⟨(mdbGet_envelope_spec [("id", .num 5), ("title", .str "X")]).1 (by decide),
   ((mdbGet_envelope_spec [("results", .arr [.num 1]), ("page", .num 1),
      ("totalResults", .num 20)]).2.2 (by rfl)).1⟩

/-- **C6, counterexample.** When the REST call throws, `updateRating`
returns `{ message }` with *no* `success` key at all — not
`{ success: false, message }`; `success` is only coerced to `false`
later by the resolver layer. -/
theorem updateRating_error_shape_counterexample :
    updateRating (.ok ()) (.error { message := "Network error", statusMessage := .undef }) =
      [("message", .str "Network error")] ∧
    hasKey (updateRating (.ok ())
      (.error { message := "Network error", statusMessage := .undef })) "success" = false :=
  ⟨by rfl, by decide⟩

/-- **C6, amended.** When the underlying REST call throws, none of the
mutation operations raise: the V4 `updateList` returns
`{ success: false, message: error.message }`, while the V3
`updateRating` and `addToWatchlistOrFavorites` return a `{ message }`
object with no `success` key (the `message` being the upstream
`statusMessage` when present for `updateRating`, else `error.message`). -/
theorem mutation_error_results (e : JsError) (cv : Except JsError Unit) :
    updateList (.error e) =
      .obj [("success", .bool false), ("message", .str e.message)] ∧
    hasKey (updateRating cv (.error e)) "success" = false ∧
    getKey (updateRating (.ok ()) (.error e)) "message" =
      (if e.statusMessage.truthy then e.statusMessage else .str e.message) ∧
    hasKey (addToWatchlistOrFavorites cv (.error e)) "success" = false ∧
    getKey (addToWatchlistOrFavorites (.ok ()) (.error e)) "message" =
      .str e.message := by
  refine ⟨rfl, ?_, ?_, ?_, ?_⟩
  · cases cv <;> simp [updateRating, hasKey]
  · simp [updateRating, getKey]
  · cases cv <;> simp [addToWatchlistOrFavorites, hasKey]
  · simp [addToWatchlistOrFavorites, getKey]

/-- **C7, counterexample.** On `null` input the `camelCase.js`
`deCamelCaseArgs` returns `null` — not an empty mapping — and the
`part_003` revision throws a `TypeError` instead of returning anything. -/
theorem deCamelCaseArgs_null_counterexample :
    deCamelCaseArgs .null = .null ∧
    deCamelCaseArgs .null ≠ .obj [] ∧
    deCamelCaseArgs003 .null =
      .error "TypeError: Cannot convert undefined or null to object" :=
  ⟨by rfl,
   by
    intro h
    rw [show deCamelCaseArgs .null = .null from rfl] at h
    exact JsValue.noConfusion h,
   by rfl⟩

/-- **C7, amended.** The `camelCase.js` `deCamelCaseArgs` tolerates
falsy input (`null`, `undefined`, …) by returning `null` — a neutral
value but not an empty mapping — whereas the `part_003` revision throws
a `TypeError` on `null` or `undefined` input. -/
theorem deCamelCaseArgs_null_tolerance (v : JsValue)
    (h : v.truthy = false) :
    deCamelCaseArgs v = .null ∧
    deCamelCaseArgs003 .null =
      .error "TypeError: Cannot convert undefined or null to object" ∧
    deCamelCaseArgs003 .undef =
      .error "TypeError: Cannot convert undefined or null to object" := by
  refine ⟨?_, rfl, rfl⟩
  unfold deCamelCaseArgs
  rw [h]
  rfl

/-- Witness for C7 (amended): `null` input maps to `null`. -/
theorem deCamelCaseArgs_null_tolerance_witness :
    deCamelCaseArgs .null = .null :=
  (deCamelCaseArgs_null_tolerance .null (by rfl)).1

/-- **C8.** When `sortBy` is absent (`undefined` or `null`), the sort
translator returns the remaining arguments unchanged — every key other
than the destructured `sortBy`/`sortOrder` reads back identically — and
adds no sort key to the output. -/
theorem transformSortByInput_absent_sortBy (params : JsObj) (mt : String)
    (h : getKey params "sortBy" = .undef ∨ getKey params "sortBy" = .null) :
    transformSortByInput params mt = dropKeys params ["sortBy", "sortOrder"] ∧
    hasKey (transformSortByInput params mt) "sortBy" = false ∧
    ∀ k, k ≠ "sortBy" → k ≠ "sortOrder" →
      getKey (transformSortByInput params mt) k = getKey params k := by
  have heq : transformSortByInput params mt = dropKeys params ["sortBy", "sortOrder"] := by
    rcases h with h | h <;> simp only [transformSortByInput, h]
  refine ⟨heq, ?_, ?_⟩
  · rw [heq]
    exact hasKey_dropKeys_of_mem _ _ _ (by simp)
  · intro k h1 h2
    rw [heq]
    exact getKey_dropKeys_of_not_mem _ _ _ (by simp [h1, h2])

/-- Witness for C8: with no `sortBy`, the `page` argument passes through
untouched and no `sortBy` key appears. -/
theorem transformSortByInput_absent_sortBy_witness :
    transformSortByInput [("page", .num 3), ("sortOrder", .str "ASC")] "MOVIE" =
      [("page", .num 3)] ∧
    hasKey (transformSortByInput [("page", .num 3), ("sortOrder", .str "ASC")]
      "MOVIE") "sortBy" = false := by
  have h := transformSortByInput_absent_sortBy
    [("page", .num 3), ("sortOrder", .str "ASC")] "MOVIE" (Or.inl (by rfl))
  exact ⟨h.1.trans (by rfl), h.2.1⟩

/-- **C10.** With the fetched genre list consisting of objects,
`getGenresById` returns exactly one entry per input id in input order
(the post-lookup filter removes only entries strictly equal to `null`,
and a failed lookup yields `undefined`, which passes the filter, so
unknown ids are not dropped). -/
theorem getGenresById_per_id (genres ids : List JsValue)
    (h : ∀ g ∈ genres, ∃ f, g = JsValue.obj f) :
    getGenresById genres ids = ids.map (genreLookup genres) ∧
    (getGenresById genres ids).length = ids.length ∧
    ∀ id, (genres.find? (fun g =>
        strictEq (match g with | .obj f => getKey f "id" | _ => .undef) id)) = none →
      genreLookup genres id = .undef := by
  have hfilter : getGenresById genres ids = ids.map (genreLookup genres) := by
    unfold getGenresById
    rw [List.filter_eq_self.mpr]
    intro g hg
    rcases List.mem_map.mp hg with ⟨id, _, rfl⟩
    unfold genreLookup
    cases hf : genres.find? (fun g =>
        strictEq (match g with | .obj f => getKey f "id" | _ => .undef) id) with
    | none => rfl
    | some g' =>
      rcases h g' (List.mem_of_find?_eq_some hf) with ⟨f, rfl⟩
      rfl
  refine ⟨hfilter, by rw [hfilter, List.length_map], ?_⟩
  intro id hnone
  unfold genreLookup
  rw [hnone]

/-- Witness for C10: one known and one unknown id produce a two-entry
result in order, the unknown id contributing `undefined`. -/
theorem getGenresById_per_id_witness :
    getGenresById [.obj [("id", .num 28), ("name", .str "Action")]]
      [.num 28, .num 99] =
      [.obj [("id", .num 28), ("name", .str "Action")], .undef] ∧
    (getGenresById [.obj [("id", .num 28), ("name", .str "Action")]]
      [.num 28, .num 99]).length = 2 := by
  have h := getGenresById_per_id [.obj [("id", .num 28), ("name", .str "Action")]]
    [.num 28, .num 99] (by intro g hg; simp at hg; exact ⟨_, hg⟩)
  exact ⟨h.1.trans (by rfl), h.2.1⟩

/-! ## Split/join lemmas and the operator-suffix property -/

theorem splitSep_ne_nil (sep : Char) (cs : List Char) : splitSep sep cs ≠ [] := by
  induction cs with
  | nil => simp [splitSep]
  | cons c cs ih =>
    by_cases h : c = sep
    · simp [splitSep, h]
    · simp only [splitSep, if_neg h]
      cases hs : splitSep sep cs with
      | nil => exact absurd hs ih
      | cons t ts => simp

theorem splitSep_append_sep (sep : Char) (xs ys : List Char) :
    splitSep sep (xs ++ sep :: ys) = splitSep sep xs ++ splitSep sep ys := by
  induction xs with
  | nil => simp [splitSep]
  | cons c cs ih =>
    by_cases h : c = sep
    · simp [splitSep, h, ih]
    · rw [List.cons_append]
      simp only [splitSep, if_neg h, ih]
      cases hs : splitSep sep cs with
      | nil => exact absurd hs (splitSep_ne_nil sep cs)
      | cons t ts => simp

theorem intercalate_cons_of_ne_nil {α : Type} (sep x : List α)
    (xs : List (List α)) (h : xs ≠ []) :
    List.intercalate sep (x :: xs) = x ++ sep ++ List.intercalate sep xs := by
  cases xs with
  | nil => exact absurd rfl h
  | cons y ys => simp [List.intercalate, List.intersperse_cons_cons]

theorem intercalate_append_singleton {α : Type} (sep : List α)
    (xs : List (List α)) (y : List α) (h : xs ≠ []) :
    List.intercalate sep (xs ++ [y]) =
      List.intercalate sep xs ++ sep ++ y := by
  induction xs with
  | nil => exact absurd rfl h
  | cons x xs ih =>
    cases xs with
    | nil => simp [List.intercalate, List.intersperse_cons_cons]
    | cons z zs =>
      rw [List.cons_append, intercalate_cons_of_ne_nil _ _ _ (by simp),
        intercalate_cons_of_ne_nil _ _ _ (by simp),
        ih (by simp)]
      simp [List.append_assoc]

theorem deCamelCaseKey_append_op (op : List Char)
    (hop : splitSep '_' op = [op]) (s : List Char) :
    deCamelCaseKey (s ++ '_' :: op) =
      deCamelCaseKey s ++ '.' :: lodashSnakeCase op := by
  unfold deCamelCaseKey
  rw [splitSep_append_sep, hop, List.map_append, List.map_singleton,
    intercalate_append_singleton _ _ _
      (by simpa using splitSep_ne_nil '_' s)]
  simp

/-- **C5.** Every key with an operator suffix `_GTE`, `_LTE`, `_DESC` or
`_ASC` maps to a single REST key ending in the dotted operator `.gte`,
`.lte`, `.desc` or `.asc`; in particular
`normalizeArgs({ voteAverage_GTE: 8.5 })` produces the dotted-string key
form `{ "vote_average.gte": 8.5 }`. -/
theorem deCamelCaseKey_operator_suffixes :
    (∀ s : List Char,
      List.IsSuffix ".gte".data (deCamelCaseKey (s ++ "_GTE".data))) ∧
    (∀ s : List Char,
      List.IsSuffix ".lte".data (deCamelCaseKey (s ++ "_LTE".data))) ∧
    (∀ s : List Char,
      List.IsSuffix ".desc".data (deCamelCaseKey (s ++ "_DESC".data))) ∧
    (∀ s : List Char,
      List.IsSuffix ".asc".data (deCamelCaseKey (s ++ "_ASC".data))) ∧
    deCamelCaseArgs (.obj [("voteAverage_GTE", .num (8.5 : ℚ))]) =
      .obj [("vote_average.gte", .num (8.5 : ℚ))] := by
  refine ⟨?_, ?_, ?_, ?_, ?_⟩
  · intro s
    rw [show "_GTE".data = '_' :: "GTE".data from rfl,
      deCamelCaseKey_append_op "GTE".data (by decide) s,
      show lodashSnakeCase "GTE".data = "gte".data from by decide]
    exact ⟨deCamelCaseKey s, rfl⟩
  · intro s
    rw [show "_LTE".data = '_' :: "LTE".data from rfl,
      deCamelCaseKey_append_op "LTE".data (by decide) s,
      show lodashSnakeCase "LTE".data = "lte".data from by decide]
    exact ⟨deCamelCaseKey s, rfl⟩
  · intro s
    rw [show "_DESC".data = '_' :: "DESC".data from rfl,
      deCamelCaseKey_append_op "DESC".data (by decide) s,
      show lodashSnakeCase "DESC".data = "desc".data from by decide]
    exact ⟨deCamelCaseKey s, rfl⟩
  · intro s
    rw [show "_ASC".data = '_' :: "ASC".data from rfl,
      deCamelCaseKey_append_op "ASC".data (by decide) s,
      show lodashSnakeCase "ASC".data = "asc".data from by decide]
    exact ⟨deCamelCaseKey s, rfl⟩
  · rfl

/-- **C1, counterexample.** `deCamelCaseKey` is not idempotent: on the
already-snake_case key `vote_average` one application yields
`vote.average`, and a second application yields `vote_average` again, so
applying twice differs from applying once. -/
theorem deCamelCaseKey_not_idempotent :
    deCamelCaseKey "vote_average".data = "vote.average".data ∧
    deCamelCaseKey (deCamelCaseKey "vote_average".data) = "vote_average".data ∧
    "vote_average".data ≠ "vote.average".data :=
  ⟨by decide, by decide, by decide⟩

/-- **C9, counterexample.** The round trip fails outside the
letters/separator alphabet and on keys with no alphanumeric character:
for `a$b`, `toGraphqlKey (toRestKey k)` is `aB` while `camelCase k` is
`a$b`; for `_`, the round trip gives `"."` while `camelCase "_"` is
`"_"`.  (It also fails in the real program on digit-bearing keys such
as `AB1STc`, where real lodash emits an ordinal token `1ST`; see the
header — the amended claim excludes digits.) -/
theorem camelCase_roundTrip_counterexample :
    camelCaseV5 (deCamelCaseKey "a$b".data) = "aB".data ∧
    camelCaseV5 "a$b".data = "a$b".data ∧
    "aB".data ≠ "a$b".data ∧
    camelCaseV5 (deCamelCaseKey "_".data) = ".".data ∧
    camelCaseV5 "_".data = "_".data ∧
    (".".data : List Char) ≠ "_".data :=
  ⟨by decide, by decide, by decide, by decide, by decide, by decide⟩

/-! ## Character class toolkit -/

theorem isUpper_iff (c : Char) : c.isUpper = true ↔ 65 ≤ c.toNat ∧ c.toNat ≤ 90 := by
  simp [Char.isUpper, Char.toNat, UInt32.le_def, BitVec.le_def]
  exact Iff.rfl

theorem isLower_iff (c : Char) : c.isLower = true ↔ 97 ≤ c.toNat ∧ c.toNat ≤ 122 := by
  simp [Char.isLower, Char.toNat, UInt32.le_def, BitVec.le_def]
  exact Iff.rfl

theorem isDigit_iff (c : Char) : c.isDigit = true ↔ 48 ≤ c.toNat ∧ c.toNat ≤ 57 := by
  simp [Char.isDigit, Char.toNat, UInt32.le_def, BitVec.le_def]
  exact Iff.rfl

theorem toNat_ofNat_of_lt (n : Nat) (h : n < 55296) : (Char.ofNat n).toNat = n := by
  rw [Char.ofNat, dif_pos (Or.inl h)]
  show (UInt32.ofNat' n _).toNat = n
  simp [UInt32.ofNat', UInt32.toNat]

theorem toLower_toNat_of_isUpper (c : Char) (h : c.isUpper = true) :
    (Char.toLower c).toNat = c.toNat + 32 := by
  rw [isUpper_iff] at h
  unfold Char.toLower
  rw [if_pos ⟨h.1, h.2⟩]
  exact toNat_ofNat_of_lt _ (by omega)

theorem toLower_eq_self_of_not_isUpper (c : Char) (h : c.isUpper = false) :
    Char.toLower c = c := by
  unfold Char.toLower
  rw [if_neg]
  intro hc
  rw [Bool.eq_false_iff, Ne, isUpper_iff] at h
  exact h hc

theorem isLower_toLower (c : Char) :
    (Char.toLower c).isLower = (c.isLower || c.isUpper) := by
  by_cases h : c.isUpper = true
  · rw [h, Bool.or_true]
    rw [isLower_iff, toLower_toNat_of_isUpper c h]
    rw [isUpper_iff] at h
    omega
  · rw [Bool.not_eq_true] at h
    rw [toLower_eq_self_of_not_isUpper c h, h, Bool.or_false]

theorem isUpper_toLower (c : Char) : (Char.toLower c).isUpper = false := by
  by_cases h : c.isUpper = true
  · rw [Bool.eq_false_iff, Ne, isUpper_iff, toLower_toNat_of_isUpper c h]
    rw [isUpper_iff] at h
    omega
  · rw [Bool.not_eq_true] at h
    rw [toLower_eq_self_of_not_isUpper c h, h]

theorem isDigit_toLower (c : Char) : (Char.toLower c).isDigit = c.isDigit := by
  by_cases h : c.isUpper = true
  · have h' := h
    rw [isUpper_iff] at h'
    have h1 : (Char.toLower c).isDigit = false := by
      rw [Bool.eq_false_iff, Ne, isDigit_iff, toLower_toNat_of_isUpper c h]
      omega
    have h2 : c.isDigit = false := by
      rw [Bool.eq_false_iff, Ne, isDigit_iff]
      omega
    rw [h1, h2]
  · rw [Bool.not_eq_true] at h
    rw [toLower_eq_self_of_not_isUpper c h]

theorem toLower_toLower (c : Char) :
    Char.toLower (Char.toLower c) = Char.toLower c :=
  toLower_eq_self_of_not_isUpper _ (isUpper_toLower c)

theorem toUpper_toNat_of_isLower (c : Char) (h : c.isLower = true) :
    (Char.toUpper c).toNat = c.toNat - 32 := by
  rw [isLower_iff] at h
  unfold Char.toUpper
  rw [if_pos ⟨h.1, h.2⟩]
  exact toNat_ofNat_of_lt _ (by omega)

theorem toUpper_eq_self_of_not_isLower (c : Char) (h : c.isLower = false) :
    Char.toUpper c = c := by
  unfold Char.toUpper
  rw [if_neg]
  intro hc
  rw [Bool.eq_false_iff, Ne, isLower_iff] at h
  exact h hc

theorem isDigit_toUpper (c : Char) : (Char.toUpper c).isDigit = c.isDigit := by
  by_cases h : c.isLower = true
  · have h' := h
    rw [isLower_iff] at h'
    have h1 : (Char.toUpper c).isDigit = false := by
      rw [Bool.eq_false_iff, Ne, isDigit_iff, toUpper_toNat_of_isLower c h]
      omega
    have h2 : c.isDigit = false := by
      rw [Bool.eq_false_iff, Ne, isDigit_iff]
      omega
    rw [h1, h2]
  · rw [Bool.not_eq_true] at h
    rw [toUpper_eq_self_of_not_isLower c h]

theorem isLower_toUpper (c : Char) : (Char.toUpper c).isLower = false := by
  by_cases h : c.isLower = true
  · rw [Bool.eq_false_iff, Ne, isLower_iff, toUpper_toNat_of_isLower c h]
    rw [isLower_iff] at h
    omega
  · rw [Bool.not_eq_true] at h
    rw [toUpper_eq_self_of_not_isLower c h, h]

theorem toUpper_toUpper (c : Char) :
    Char.toUpper (Char.toUpper c) = Char.toUpper c :=
  toUpper_eq_self_of_not_isLower _ (isLower_toUpper c)

theorem lower_not_upper (c : Char) (h : c.isLower = true) : c.isUpper = false := by
  rw [isLower_iff] at h
  rw [Bool.eq_false_iff, Ne, isUpper_iff]
  omega

theorem upper_not_lower (c : Char) (h : c.isUpper = true) : c.isLower = false := by
  rw [isUpper_iff] at h
  rw [Bool.eq_false_iff, Ne, isLower_iff]
  omega

theorem digit_not_lower (c : Char) (h : c.isDigit = true) : c.isLower = false := by
  rw [isDigit_iff] at h
  rw [Bool.eq_false_iff, Ne, isLower_iff]
  omega

theorem digit_not_upper (c : Char) (h : c.isDigit = true) : c.isUpper = false := by
  rw [isDigit_iff] at h
  rw [Bool.eq_false_iff, Ne, isUpper_iff]
  omega

theorem lower_not_digit (c : Char) (h : c.isLower = true) : c.isDigit = false := by
  rw [isLower_iff] at h
  rw [Bool.eq_false_iff, Ne, isDigit_iff]
  omega

theorem upper_not_digit (c : Char) (h : c.isUpper = true) : c.isDigit = false := by
  rw [isUpper_iff] at h
  rw [Bool.eq_false_iff, Ne, isDigit_iff]
  omega

theorem sep_not_word (c : Char) (h : isSep c = true) : wordChar c = false := by
  simp only [isSep, Bool.or_eq_true, beq_iff_eq] at h
  rcases h with ((h | h) | h) | h <;> subst h <;> decide

theorem sep_toLower (c : Char) (h : isSep c = true) : Char.toLower c = c := by
  apply toLower_eq_self_of_not_isUpper
  simp only [isSep, Bool.or_eq_true, beq_iff_eq] at h
  rcases h with ((h | h) | h) | h <;> subst h <;> decide

theorem nonword_not_classes (c : Char) (h : wordChar c = false) :
    c.isLower = false ∧ c.isUpper = false ∧ c.isDigit = false := by
  simp only [wordChar, Bool.or_eq_false_iff] at h
  exact ⟨h.1.2, h.1.1, h.2⟩

theorem sep_false_of_isLower (c : Char) (h : c.isLower = true) :
    isSep c = false := by
  simp only [isSep, Bool.or_eq_false_iff, beq_eq_false_iff_ne]
  refine ⟨⟨⟨?_, ?_⟩, ?_⟩, ?_⟩ <;> intro he <;> subst he <;>
    exact absurd h (by decide)

theorem sep_false_of_isUpper (c : Char) (h : c.isUpper = true) :
    isSep c = false := by
  simp only [isSep, Bool.or_eq_false_iff, beq_eq_false_iff_ne]
  refine ⟨⟨⟨?_, ?_⟩, ?_⟩, ?_⟩ <;> intro he <;> subst he <;>
    exact absurd h (by decide)

theorem isSep_toLower (c : Char) : isSep (Char.toLower c) = isSep c := by
  by_cases h : c.isUpper = true
  · rw [sep_false_of_isUpper c h, sep_false_of_isLower _ (by
      rw [isLower_toLower, h, Bool.or_true])]
  · rw [Bool.not_eq_true] at h
    rw [toLower_eq_self_of_not_isUpper c h]

/-! ## Tokenizer step lemmas -/

theorem lwGo_nil_nil : lwGo [] [] = [] := rfl

theorem lwGo_cons_nil (p : Char) (cur : List Char) :
    lwGo (p :: cur) [] = [(p :: cur).reverse] := rfl

theorem lwGo_nil_cons (c : Char) (cs : List Char) :
    lwGo [] (c :: cs) = if wordChar c then lwGo [c] cs else lwGo [] cs := rfl

theorem lwGo_cons_sep (p : Char) (cur : List Char) (c : Char) (cs : List Char)
    (hc : wordChar c = false) :
    lwGo (p :: cur) (c :: cs) = (p :: cur).reverse :: lwGo [] cs := by
  obtain ⟨h1, h2, h3⟩ := nonword_not_classes c hc
  simp only [lwGo, h1, h2, h3, Bool.false_eq_true, if_false]

theorem lwGo_cons_lower_app (p : Char) (cur : List Char) (c : Char)
    (cs : List Char) (hc : c.isLower = true)
    (hp : (p.isLower || p.isUpper) = true) :
    lwGo (p :: cur) (c :: cs) = lwGo (c :: p :: cur) cs := by
  simp only [lwGo, hc, if_true, hp]

theorem lwGo_cons_lower_new (p : Char) (cur : List Char) (c : Char)
    (cs : List Char) (hc : c.isLower = true)
    (hp : (p.isLower || p.isUpper) = false) :
    lwGo (p :: cur) (c :: cs) = (p :: cur).reverse :: lwGo [c] cs := by
  simp only [lwGo, hc, if_true, hp, Bool.false_eq_true, if_false]

theorem lwGo_cons_upper_break (p : Char) (cur : List Char) (c d : Char)
    (cs : List Char) (hp : p.isUpper = true) (hc : c.isUpper = true)
    (hd : d.isLower = true) :
    lwGo (p :: cur) (c :: d :: cs) = (p :: cur).reverse :: lwGo [c] (d :: cs) := by
  simp only [lwGo, upper_not_lower c hc, Bool.false_eq_true, if_false, hc,
    if_true, hp, hd]

theorem lwGo_cons_upper_app_cons (p : Char) (cur : List Char) (c d : Char)
    (cs : List Char) (hp : p.isUpper = true) (hc : c.isUpper = true)
    (hd : d.isLower = false) :
    lwGo (p :: cur) (c :: d :: cs) = lwGo (c :: p :: cur) (d :: cs) := by
  simp only [lwGo, upper_not_lower c hc, Bool.false_eq_true, if_false, hc,
    if_true, hp, hd]

theorem lwGo_cons_upper_app_nil (p : Char) (cur : List Char) (c : Char)
    (hp : p.isUpper = true) (hc : c.isUpper = true) :
    lwGo (p :: cur) [c] = [(c :: p :: cur).reverse] := by
  simp [lwGo, upper_not_lower c hc, hc, hp]

theorem lwGo_cons_upper_new (p : Char) (cur : List Char) (c : Char)
    (cs : List Char) (hp : p.isUpper = false) (hc : c.isUpper = true) :
    lwGo (p :: cur) (c :: cs) = (p :: cur).reverse :: lwGo [c] cs := by
  simp only [lwGo, upper_not_lower c hc, Bool.false_eq_true, if_false, hc,
    if_true, hp]

theorem lwGo_cons_digit_app (p : Char) (cur : List Char) (c : Char)
    (cs : List Char) (hc : c.isDigit = true) (hp : p.isDigit = true) :
    lwGo (p :: cur) (c :: cs) = lwGo (c :: p :: cur) cs := by
  simp only [lwGo, digit_not_lower c hc, digit_not_upper c hc,
    Bool.false_eq_true, if_false, hc, if_true, hp]

theorem lwGo_cons_digit_new (p : Char) (cur : List Char) (c : Char)
    (cs : List Char) (hc : c.isDigit = true) (hp : p.isDigit = false) :
    lwGo (p :: cur) (c :: cs) = (p :: cur).reverse :: lwGo [c] cs := by
  simp only [lwGo, digit_not_lower c hc, digit_not_upper c hc,
    Bool.false_eq_true, if_false, hc, if_true, hp]

/-- Tokenization splits at every non-word character. -/
theorem lwGo_append_sep (c : Char) (hc : wordChar c = false) (ys : List Char) :
    ∀ (xs cur : List Char),
      lwGo cur (xs ++ c :: ys) = lwGo cur xs ++ lwGo [] ys := by
  intro xs
  induction xs with
  | nil =>
    intro cur
    cases cur with
    | nil =>
      rw [List.nil_append, lwGo_nil_cons, if_neg (by simp [hc]), lwGo_nil_nil,
        List.nil_append]
    | cons p cur' =>
      rw [List.nil_append, lwGo_cons_sep _ _ _ _ hc, lwGo_cons_nil,
        List.cons_append, List.nil_append]
  | cons x xs ih =>
    intro cur
    rw [List.cons_append]
    cases cur with
    | nil =>
      rw [lwGo_nil_cons, lwGo_nil_cons]
      by_cases hx : wordChar x = true
      · rw [if_pos hx, if_pos hx, ih]
      · rw [if_neg hx, if_neg hx, ih]
    | cons p cur' =>
      by_cases hxl : x.isLower = true
      · by_cases hp : (p.isLower || p.isUpper) = true
        · rw [lwGo_cons_lower_app _ _ _ _ hxl hp,
            lwGo_cons_lower_app _ _ _ _ hxl hp, ih]
        · rw [lwGo_cons_lower_new _ _ _ _ hxl (by simpa using hp),
            lwGo_cons_lower_new _ _ _ _ hxl (by simpa using hp), ih,
            List.cons_append]
      · by_cases hxu : x.isUpper = true
        · by_cases hp : p.isUpper = true
          · cases xs with
            | nil =>
              rw [List.nil_append, lwGo_cons_upper_app_nil _ _ _ hp hxu]
              have hcl : c.isLower = false := (nonword_not_classes c hc).1
              rw [lwGo_cons_upper_app_cons _ _ _ _ _ hp hxu hcl,
                lwGo_cons_sep _ _ _ _ hc, List.cons_append, List.nil_append]
            | cons d xs' =>
              by_cases hd : d.isLower = true
              · rw [List.cons_append, lwGo_cons_upper_break _ _ _ _ _ hp hxu hd,
                  lwGo_cons_upper_break _ _ _ _ _ hp hxu hd,
                  ← List.cons_append, ih, List.cons_append]
              · rw [List.cons_append, lwGo_cons_upper_app_cons _ _ _ _ _ hp hxu
                    (by simpa using hd),
                  lwGo_cons_upper_app_cons _ _ _ _ _ hp hxu (by simpa using hd),
                  ← List.cons_append, ih]
          · rw [lwGo_cons_upper_new _ _ _ _ (by simpa using hp) hxu,
              lwGo_cons_upper_new _ _ _ _ (by simpa using hp) hxu, ih,
              List.cons_append]
        · by_cases hxd : x.isDigit = true
          · by_cases hp : p.isDigit = true
            · rw [lwGo_cons_digit_app _ _ _ _ hxd hp,
                lwGo_cons_digit_app _ _ _ _ hxd hp, ih]
            · rw [lwGo_cons_digit_new _ _ _ _ hxd (by simpa using hp),
                lwGo_cons_digit_new _ _ _ _ hxd (by simpa using hp), ih,
                List.cons_append]
          · have hxw : wordChar x = false := by
              simp [wordChar, hxl, hxu, hxd]
            rw [lwGo_cons_sep _ _ _ _ hxw, lwGo_cons_sep _ _ _ _ hxw, ih,
              List.cons_append]

/-- `lwords` splits at every non-word character. -/
theorem lwords_append_sep (c : Char) (hc : wordChar c = false)
    (xs ys : List Char) :
    lwords (xs ++ c :: ys) = lwords xs ++ lwords ys :=
  lwGo_append_sep c hc ys xs []

/-- The first token produced from a nonempty current-token state extends
that state. -/
theorem lwGo_first_token :
    ∀ (cs : List Char) (p : Char) (cur : List Char),
      ∃ m rest, lwGo (p :: cur) cs = ((p :: cur).reverse ++ m) :: rest := by
  intro cs
  induction cs with
  | nil => intro p cur; exact ⟨[], [], by simp [lwGo_cons_nil]⟩
  | cons c cs ih =>
    intro p cur
    by_cases hcl : c.isLower = true
    · by_cases hp : (p.isLower || p.isUpper) = true
      · obtain ⟨m, rest, hm⟩ := ih c (p :: cur)
        refine ⟨c :: m, rest, ?_⟩
        rw [lwGo_cons_lower_app _ _ _ _ hcl hp, hm]
        simp
      · exact ⟨[], lwGo [c] cs,
          by rw [lwGo_cons_lower_new _ _ _ _ hcl (by simpa using hp)]; simp⟩
    · by_cases hcu : c.isUpper = true
      · by_cases hp : p.isUpper = true
        · cases cs with
          | nil =>
            exact ⟨[c], [], by rw [lwGo_cons_upper_app_nil _ _ _ hp hcu]; simp⟩
          | cons d cs' =>
            by_cases hd : d.isLower = true
            · exact ⟨[], lwGo [c] (d :: cs'),
                by rw [lwGo_cons_upper_break _ _ _ _ _ hp hcu hd]; simp⟩
            · obtain ⟨m, rest, hm⟩ := ih c (p :: cur)
              refine ⟨c :: m, rest, ?_⟩
              rw [lwGo_cons_upper_app_cons _ _ _ _ _ hp hcu (by simpa using hd),
                hm]
              simp
        · exact ⟨[], lwGo [c] cs,
            by rw [lwGo_cons_upper_new _ _ _ _ (by simpa using hp) hcu]; simp⟩
      · by_cases hcd : c.isDigit = true
        · by_cases hp : p.isDigit = true
          · obtain ⟨m, rest, hm⟩ := ih c (p :: cur)
            refine ⟨c :: m, rest, ?_⟩
            rw [lwGo_cons_digit_app _ _ _ _ hcd hp, hm]
            simp
          · exact ⟨[], lwGo [c] cs,
              by rw [lwGo_cons_digit_new _ _ _ _ hcd (by simpa using hp)]; simp⟩
        · have hw : wordChar c = false := by simp [wordChar, hcl, hcu, hcd]
          exact ⟨[], lwGo [] cs, by rw [lwGo_cons_sep _ _ _ _ hw]; simp⟩

theorem lwGo_ne_nil_of_cur_cons (cs : List Char) (p : Char) (cur : List Char) :
    lwGo (p :: cur) cs ≠ [] := by
  obtain ⟨m, rest, hm⟩ := lwGo_first_token cs p cur
  rw [hm]
  simp

theorem lwords_ne_nil_of_word (cs : List Char)
    (h : ∃ c ∈ cs, wordChar c = true) : lwords cs ≠ [] := by
  induction cs with
  | nil => simp at h
  | cons c cs ih =>
    show lwGo [] (c :: cs) ≠ []
    rw [lwGo_nil_cons]
    by_cases hc : wordChar c = true
    · rw [if_pos hc]
      exact lwGo_ne_nil_of_cur_cons cs c []
    · rw [if_neg hc]
      rcases h with ⟨d, hd, hdw⟩
      rcases List.mem_cons.mp hd with rfl | hd'
      · exact absurd hdw hc
      · exact ih ⟨d, hd', hdw⟩

theorem lwords_nil_of_nonword (cs : List Char)
    (h : ∀ c ∈ cs, wordChar c = false) : lwords cs = [] := by
  induction cs with
  | nil => rfl
  | cons c cs ih =>
    show lwGo [] (c :: cs) = []
    rw [lwGo_nil_cons, if_neg (by simp [h c (by simp)])]
    exact ih (fun d hd => h d (by simp [hd]))

/-- Consuming a maximal lowercase run while inside a token. -/
theorem lwGo_lower_run (t : List Char) (ht : ∀ c ∈ t, c.isLower = true) :
    ∀ (p : Char) (cur rest : List Char), (p.isLower || p.isUpper) = true →
      lwGo (p :: cur) (t ++ rest) = lwGo (t.reverse ++ p :: cur) rest := by
  induction t with
  | nil => intro p cur rest _; simp
  | cons c t ih =>
    intro p cur rest hp
    have hc : c.isLower = true := ht c (by simp)
    rw [List.cons_append, lwGo_cons_lower_app _ _ _ _ hc hp,
      ih (fun d hd => ht d (by simp [hd])) c (p :: cur) rest (by simp [hc])]
    simp

/-- Consuming a maximal digit run while inside a token. -/
theorem lwGo_digit_run (t : List Char) (ht : ∀ c ∈ t, c.isDigit = true) :
    ∀ (p : Char) (cur rest : List Char), p.isDigit = true →
      lwGo (p :: cur) (t ++ rest) = lwGo (t.reverse ++ p :: cur) rest := by
  induction t with
  | nil => intro p cur rest _; simp
  | cons c t ih =>
    intro p cur rest hp
    have hc : c.isDigit = true := ht c (by simp)
    rw [List.cons_append, lwGo_cons_digit_app _ _ _ _ hc hp,
      ih (fun d hd => ht d (by simp [hd])) c (p :: cur) rest hc]
    simp

theorem lwGo_ne_nil_nil (cur : List Char) (h : cur ≠ []) :
    lwGo cur [] = [cur.reverse] := by
  cases cur with
  | nil => exact absurd rfl h
  | cons p cur' => rfl

/-- A plain token tokenizes to itself. -/
theorem lwords_plain_tok (t : List Char) (h : plainTok t) : lwords t = [t] := by
  obtain ⟨hne, hcl⟩ := h
  cases t with
  | nil => exact absurd rfl hne
  | cons c t' =>
    show lwGo [] (c :: t') = [c :: t']
    rcases hcl with hl | hd
    · have hc : c.isLower = true := hl c (by simp)
      have hrun := lwGo_lower_run t' (fun d hd => hl d (by simp [hd]))
        c [] [] (by simp [hc])
      rw [List.append_nil] at hrun
      rw [lwGo_nil_cons, if_pos (by simp [wordChar, hc]), hrun,
        lwGo_ne_nil_nil _ (by simp)]
      simp
    · have hc : c.isDigit = true := hd c (by simp)
      have hrun := lwGo_digit_run t' (fun d hd' => hd d (by simp [hd']))
        c [] [] hc
      rw [List.append_nil] at hrun
      rw [lwGo_nil_cons, if_pos (by simp [wordChar, hc]), hrun,
        lwGo_ne_nil_nil _ (by simp)]
      simp

/-- Tokenizing a separator-joined list of plain tokens recovers exactly
those tokens. -/
theorem lwords_intercalate_plain (sep : Char) (hsep : wordChar sep = false)
    (ts : List (List Char)) (h : ∀ t ∈ ts, plainTok t) :
    lwords (List.intercalate [sep] ts) = ts := by
  induction ts with
  | nil => rfl
  | cons t ts ih =>
    cases ts with
    | nil =>
      rw [show List.intercalate [sep] [t] = t by simp [List.intercalate]]
      exact lwords_plain_tok t (h t (by simp))
    | cons t2 ts2 =>
      rw [intercalate_cons_of_ne_nil _ _ _ (by simp), List.append_assoc,
        List.singleton_append, lwords_append_sep sep hsep,
        lwords_plain_tok t (h t (by simp)),
        ih (fun u hu => h u (by simp [hu]))]
      rfl

theorem curInv_nil : curInv [] := Or.inl rfl

theorem curInv_single (c : Char) (hw : wordChar c = true) : curInv [c] := by
  have h : (c.isUpper = true ∨ c.isLower = true) ∨ c.isDigit = true := by
    simpa [wordChar, Bool.or_eq_true] using hw
  rcases h with (h | h) | h
  · refine Or.inr (Or.inl ?_)
    intro x hx
    rw [List.mem_singleton] at hx
    subst hx
    rw [isLower_toLower, h, Bool.or_true]
  · refine Or.inr (Or.inl ?_)
    intro x hx
    rw [List.mem_singleton] at hx
    subst hx
    rw [isLower_toLower, h, Bool.true_or]
  · refine Or.inr (Or.inr ?_)
    intro x hx
    rw [List.mem_singleton] at hx
    subst hx
    exact h

theorem curInv_letters (p : Char) (cur : List Char)
    (hinv : curInv (p :: cur)) (hp : (p.isLower || p.isUpper) = true) :
    ∀ c ∈ p :: cur, (Char.toLower c).isLower = true := by
  rcases hinv with h | h | h
  · exact absurd h (by simp)
  · exact h
  · have hd : p.isDigit = true := h p (by simp)
    rw [digit_not_lower p hd, digit_not_upper p hd] at hp
    simp at hp

theorem curInv_digits (p : Char) (cur : List Char)
    (hinv : curInv (p :: cur)) (hp : p.isDigit = true) :
    ∀ c ∈ p :: cur, c.isDigit = true := by
  rcases hinv with h | h | h
  · exact absurd h (by simp)
  · have := h p (by simp)
    rw [toLower_eq_self_of_not_isUpper p (digit_not_upper p hp)] at this
    rw [digit_not_lower p hp] at this
    simp at this
  · exact h

theorem rawTok_reverse_of_curInv (p : Char) (cur : List Char)
    (hinv : curInv (p :: cur)) : rawTok ((p :: cur).reverse) := by
  refine ⟨by simp, ?_⟩
  rcases hinv with h | h | h
  · exact absurd h (by simp)
  · exact Or.inl (by intro c hc; exact h c (List.mem_reverse.mp hc))
  · exact Or.inr (by intro c hc; exact h c (List.mem_reverse.mp hc))

/-- Every token the scanner emits is a raw token. -/
theorem lwGo_shapes :
    ∀ (cs cur : List Char), curInv cur → ∀ t ∈ lwGo cur cs, rawTok t := by
  intro cs
  induction cs with
  | nil =>
    intro cur hinv t ht
    cases cur with
    | nil => simp [lwGo_nil_nil] at ht
    | cons p cur' =>
      rw [lwGo_cons_nil, List.mem_singleton] at ht
      subst ht
      exact rawTok_reverse_of_curInv p cur' hinv
  | cons c cs ih =>
    intro cur hinv t ht
    cases cur with
    | nil =>
      rw [lwGo_nil_cons] at ht
      by_cases hw : wordChar c = true
      · rw [if_pos hw] at ht
        exact ih [c] (curInv_single c hw) t ht
      · rw [if_neg hw] at ht
        exact ih [] curInv_nil t ht
    | cons p cur' =>
      by_cases hcl : c.isLower = true
      · by_cases hp : (p.isLower || p.isUpper) = true
        · rw [lwGo_cons_lower_app _ _ _ _ hcl hp] at ht
          refine ih (c :: p :: cur') (Or.inr (Or.inl ?_)) t ht
          intro x hx
          rcases List.mem_cons.mp hx with rfl | hx'
          · rw [isLower_toLower, hcl, Bool.true_or]
          · exact curInv_letters p cur' hinv hp x hx'
        · rw [lwGo_cons_lower_new _ _ _ _ hcl (by simpa using hp)] at ht
          rcases List.mem_cons.mp ht with rfl | ht'
          · exact rawTok_reverse_of_curInv p cur' hinv
          · exact ih [c] (curInv_single c (by simp [wordChar, hcl])) t ht'
      · by_cases hcu : c.isUpper = true
        · by_cases hp : p.isUpper = true
          · cases cs with
            | nil =>
              rw [lwGo_cons_upper_app_nil _ _ _ hp hcu,
                List.mem_singleton] at ht
              subst ht
              refine rawTok_reverse_of_curInv c (p :: cur')
                (Or.inr (Or.inl ?_))
              intro x hx
              rcases List.mem_cons.mp hx with rfl | hx'
              · rw [isLower_toLower, hcu, Bool.or_true]
              · exact curInv_letters p cur' hinv (by simp [hp]) x hx'
            | cons d cs' =>
              by_cases hd : d.isLower = true
              · rw [lwGo_cons_upper_break _ _ _ _ _ hp hcu hd] at ht
                rcases List.mem_cons.mp ht with rfl | ht'
                · exact rawTok_reverse_of_curInv p cur' hinv
                · exact ih [c] (curInv_single c (by simp [wordChar, hcu])) t ht'
              · rw [lwGo_cons_upper_app_cons _ _ _ _ _ hp hcu
                  (by simpa using hd)] at ht
                refine ih (c :: p :: cur') (Or.inr (Or.inl ?_)) t ht
                intro x hx
                rcases List.mem_cons.mp hx with rfl | hx'
                · rw [isLower_toLower, hcu, Bool.or_true]
                · exact curInv_letters p cur' hinv (by simp [hp]) x hx'
          · rw [lwGo_cons_upper_new _ _ _ _ (by simpa using hp) hcu] at ht
            rcases List.mem_cons.mp ht with rfl | ht'
            · exact rawTok_reverse_of_curInv p cur' hinv
            · exact ih [c] (curInv_single c (by simp [wordChar, hcu])) t ht'
        · by_cases hcd : c.isDigit = true
          · by_cases hp : p.isDigit = true
            · rw [lwGo_cons_digit_app _ _ _ _ hcd hp] at ht
              refine ih (c :: p :: cur') (Or.inr (Or.inr ?_)) t ht
              intro x hx
              rcases List.mem_cons.mp hx with rfl | hx'
              · exact hcd
              · exact curInv_digits p cur' hinv hp x hx'
            · rw [lwGo_cons_digit_new _ _ _ _ hcd (by simpa using hp)] at ht
              rcases List.mem_cons.mp ht with rfl | ht'
              · exact rawTok_reverse_of_curInv p cur' hinv
              · exact ih [c] (curInv_single c (by simp [wordChar, hcd])) t ht'
          · have hw : wordChar c = false := by simp [wordChar, hcl, hcu, hcd]
            rw [lwGo_cons_sep _ _ _ _ hw] at ht
            rcases List.mem_cons.mp ht with rfl | ht'
            · exact rawTok_reverse_of_curInv p cur' hinv
            · exact ih [] curInv_nil t ht'

/-- Every token of `lwords` is a raw token. -/
theorem lwords_shapes (cs : List Char) : ∀ t ∈ lwords cs, rawTok t :=
  lwGo_shapes cs [] curInv_nil

/-- Lowercasing a raw token yields a plain token. -/
theorem plainTok_map_toLower (t : List Char) (h : rawTok t) :
    plainTok (t.map Char.toLower) := by
  obtain ⟨hne, hcl⟩ := h
  refine ⟨by simpa using hne, ?_⟩
  rcases hcl with hl | hd
  · refine Or.inl ?_
    intro c hc
    rcases List.mem_map.mp hc with ⟨d, hd', rfl⟩
    exact hl d hd'
  · refine Or.inr ?_
    intro c hc
    rcases List.mem_map.mp hc with ⟨d, hd', rfl⟩
    rw [toLower_eq_self_of_not_isUpper d (digit_not_upper d (hd d hd'))]
    exact hd d hd'

/-! ## `lodash.snakeCase` properties and idempotence of the `part_005` fix -/

theorem removeApostrophes_eq_self (cs : List Char)
    (h : ∀ c ∈ cs, c ≠ '\'' ∧ c ≠ '’') : removeApostrophes cs = cs := by
  unfold removeApostrophes
  rw [List.filter_eq_self]
  intro c hc
  simp [(h c hc).1, (h c hc).2]

theorem removeApostrophes_append_cons (x y : List Char) (c : Char)
    (hc : ¬(c = '\'' ∨ c = '’')) :
    removeApostrophes (x ++ c :: y) =
      removeApostrophes x ++ c :: removeApostrophes y := by
  unfold removeApostrophes
  rw [not_or] at hc
  rw [List.filter_append, List.filter_cons, if_pos (by simp [hc.1, hc.2])]

theorem mem_intercalate {α : Type} (s : List α) (ts : List (List α)) (c : α)
    (h : c ∈ List.intercalate s ts) : (∃ t ∈ ts, c ∈ t) ∨ c ∈ s := by
  induction ts with
  | nil => simp [List.intercalate] at h
  | cons t ts ih =>
    cases ts with
    | nil =>
      rw [show List.intercalate s [t] = t by simp [List.intercalate]] at h
      exact Or.inl ⟨t, by simp, h⟩
    | cons t2 ts2 =>
      rw [intercalate_cons_of_ne_nil _ _ _ (by simp)] at h
      rcases List.mem_append.mp h with h' | h'
      · rcases List.mem_append.mp h' with h'' | h''
        · exact Or.inl ⟨t, by simp, h''⟩
        · exact Or.inr h''
      · rcases ih h' with ⟨u, hu, hcu⟩ | h''
        · exact Or.inl ⟨u, by simp [hu], hcu⟩
        · exact Or.inr h''

/-- The tokens of a snake-cased string are the lowercased tokens of the
(apostrophe-free) original. -/
theorem lwords_lodashSnakeCase (cs : List Char) :
    lwords (lodashSnakeCase cs) =
      (lwords (removeApostrophes cs)).map (List.map Char.toLower) := by
  unfold lodashSnakeCase
  apply lwords_intercalate_plain '_' (by decide)
  intro t ht
  rcases List.mem_map.mp ht with ⟨u, hu, rfl⟩
  exact plainTok_map_toLower u (lwords_shapes _ u hu)

theorem lodashSnakeCase_no_apostrophes (cs : List Char) :
    ∀ c ∈ lodashSnakeCase cs, c ≠ '\'' ∧ c ≠ '’' := by
  intro c hc
  rcases mem_intercalate _ _ c hc with ⟨t, ht, hct⟩ | hs
  · rcases List.mem_map.mp ht with ⟨u, hu, rfl⟩
    have hraw := plainTok_map_toLower u (lwords_shapes _ u hu)
    rcases hraw.2 with hl | hd
    · have := hl c hct
      constructor <;> intro he <;> subst he <;> exact absurd this (by decide)
    · have := hd c hct
      constructor <;> intro he <;> subst he <;> exact absurd this (by decide)
  · rw [List.mem_singleton] at hs
    subst hs
    exact ⟨by decide, by decide⟩

theorem map_toLower_idem (t : List Char) :
    (t.map Char.toLower).map Char.toLower = t.map Char.toLower := by
  rw [List.map_map]
  apply List.map_congr_left
  intro c _
  exact toLower_toLower c

/-- `lodash.snakeCase` is idempotent. -/
theorem lodashSnakeCase_idem (cs : List Char) :
    lodashSnakeCase (lodashSnakeCase cs) = lodashSnakeCase cs := by
  conv =>
    lhs
    rw [lodashSnakeCase]
  rw [removeApostrophes_eq_self _ (lodashSnakeCase_no_apostrophes cs),
    lwords_lodashSnakeCase, List.map_map]
  have : (List.map Char.toLower ∘ List.map Char.toLower) = List.map Char.toLower := by
    funext t
    exact map_toLower_idem t
  rw [this]
  rfl

/-- Replacing one non-word, non-apostrophe character by another does not
change the snake-cased string. -/
theorem lodashSnakeCase_sep_congr (a b : Char) (ha : wordChar a = false)
    (hb : wordChar b = false) (hana : ¬(a = '\'' ∨ a = '’'))
    (hbna : ¬(b = '\'' ∨ b = '’')) (x y : List Char) :
    lodashSnakeCase (x ++ a :: y) = lodashSnakeCase (x ++ b :: y) := by
  unfold lodashSnakeCase
  rw [removeApostrophes_append_cons x y a hana,
    removeApostrophes_append_cons x y b hbna,
    lwords_append_sep a ha, lwords_append_sep b hb]

/-- The anchored operator-suffix replacement does not change the result
of a subsequent `snakeCase`. -/
theorem lodashSnakeCase_opSuffixFix (x : List Char) :
    lodashSnakeCase (opSuffixFix x) = lodashSnakeCase x := by
  unfold opSuffixFix
  by_cases h1 : "_gte".data.isSuffixOf x = true
  · rw [if_pos h1]
    obtain ⟨y, hy⟩ := List.isSuffixOf_iff_suffix.mp h1
    subst hy
    have hl : y.length = (y ++ "_gte".data).length - 4 := by
      simp
    rw [← hl, List.take_left]
    exact lodashSnakeCase_sep_congr '.' '_' (by decide) (by decide)
      (by decide) (by decide) y "gte".data
  · rw [if_neg h1]
    by_cases h2 : "_lte".data.isSuffixOf x = true
    · rw [if_pos h2]
      obtain ⟨y, hy⟩ := List.isSuffixOf_iff_suffix.mp h2
      subst hy
      have hl : y.length = (y ++ "_lte".data).length - 4 := by
        simp
      rw [← hl, List.take_left]
      exact lodashSnakeCase_sep_congr '.' '_' (by decide) (by decide)
        (by decide) (by decide) y "lte".data
    · rw [if_neg h2]
      by_cases h3 : "_desc".data.isSuffixOf x = true
      · rw [if_pos h3]
        obtain ⟨y, hy⟩ := List.isSuffixOf_iff_suffix.mp h3
        subst hy
        have hl : y.length = (y ++ "_desc".data).length - 5 := by
          simp
        rw [← hl, List.take_left]
        exact lodashSnakeCase_sep_congr '.' '_' (by decide) (by decide)
          (by decide) (by decide) y "desc".data
      · rw [if_neg h3]
        by_cases h4 : "_asc".data.isSuffixOf x = true
        · rw [if_pos h4]
          obtain ⟨y, hy⟩ := List.isSuffixOf_iff_suffix.mp h4
          subst hy
          have hl : y.length = (y ++ "_asc".data).length - 4 := by
            simp
          rw [← hl, List.take_left]
          exact lodashSnakeCase_sep_congr '.' '_' (by decide) (by decide)
            (by decide) (by decide) y "asc".data
        · rw [if_neg h4]

/-- **C1, amended.** The fixed `snakeCase` of `part_005` is idempotent on
every string — including keys already in snake_case and keys already
containing a dot, such as `some_value` and `some_value.gte`. -/
theorem snakeCase005_idempotent (cs : List Char) :
    snakeCase005 (snakeCase005 cs) = snakeCase005 cs := by
  unfold snakeCase005
  rw [lodashSnakeCase_opSuffixFix, lodashSnakeCase_idem]

/-! ## The preserveCamelCase simulation

The key fact behind the camelcase/words round trip: lowercasing the
output of `preserveCamelCase` and tokenizing yields exactly the
lowercased tokens of the original string, because `preserveCamelCase`
inserts a separator at precisely the case-transition token boundaries
that lowercasing would otherwise erase.
-/

theorem wordChar_toLower (c : Char) :
    wordChar (Char.toLower c) = wordChar c := by
  unfold wordChar
  rw [isUpper_toLower, isLower_toLower, isDigit_toLower]
  cases hu : c.isUpper <;> cases hl : c.isLower <;> cases hd : c.isDigit <;>
    simp

theorem headTest_toLower (q : Char) :
    ((Char.toLower q).isLower || (Char.toLower q).isUpper) =
      (q.isLower || q.isUpper) := by
  rw [isLower_toLower, isUpper_toLower, Bool.or_false]

theorem pcF_nil (lL lU lLL : Bool) (pend : Option Char) :
    pcF lL lU lLL pend [] = pend.toList := rfl

theorem pcF_cons (lL lU lLL : Bool) (pend : Option Char) (c : Char)
    (cs : List Char) :
    pcF lL lU lLL pend (c :: cs) =
      if lL && c.isUpper then
        pend.toList ++ '-' :: pcF false true lU (some c) cs
      else if lU && lLL && c.isLower then
        '-' :: pend.toList ++ pcF true false false (some c) cs
      else pend.toList ++ pcF c.isLower c.isUpper lU (some c) cs := rfl

theorem toLower_isLower_of_isLower (c : Char) (h : c.isLower = true) :
    (Char.toLower c).isLower = true := by
  rw [isLower_toLower, h, Bool.true_or]

theorem toLower_isLower_of_isUpper (c : Char) (h : c.isUpper = true) :
    (Char.toLower c).isLower = true := by
  rw [isLower_toLower, h, Bool.or_true]

/-- The simulation: running the tokenizer over the lowercased
`preserveCamelCase` output (from a pending character `p` and matching
flags) produces the lowercased tokens the tokenizer would produce over
the original stream.  The hypothesis pins down the states reachable when
the walk and the tokenizer run in lockstep: while the pending character
is uppercase, the token being built cannot end in a lowercase letter
(the first insertion branch would have fired), and if it ends in an
uppercase letter the last-last-upper flag is set. -/
theorem pcF_lower_sim :
    ∀ (cs : List Char) (p : Char) (curO : List Char) (lLL : Bool),
      (p.isUpper = true → ∀ q r, curO = q :: r →
        q.isLower = false ∧ (q.isUpper = true → lLL = true)) →
      lwGo (curO.map Char.toLower)
          ((pcF p.isLower p.isUpper lLL (some p) cs).map Char.toLower)
        = (lwGo curO (p :: cs)).map (List.map Char.toLower) := by
  intro cs
  induction cs with
  | nil =>
    intro p curO lLL hinv
    rw [pcF_nil]
    show lwGo (curO.map Char.toLower) [Char.toLower p] = _
    cases curO with
    | nil =>
      rw [List.map_nil, lwGo_nil_cons, lwGo_nil_cons, wordChar_toLower]
      by_cases hw : wordChar p = true
      · rw [if_pos hw, if_pos hw, lwGo_cons_nil, lwGo_cons_nil]
        rfl
      · rw [if_neg hw, if_neg hw]
        rfl
    | cons q r =>
      rw [List.map_cons]
      by_cases hpl : p.isLower = true
      · by_cases hq : (q.isLower || q.isUpper) = true
        · rw [lwGo_cons_lower_app _ _ _ _ (toLower_isLower_of_isLower p hpl)
            (by rw [headTest_toLower]; exact hq),
            lwGo_cons_lower_app _ _ _ _ hpl hq, lwGo_cons_nil, lwGo_cons_nil]
          simp
        · rw [lwGo_cons_lower_new _ _ _ _ (toLower_isLower_of_isLower p hpl)
            (by rw [headTest_toLower]; simpa using hq),
            lwGo_cons_lower_new _ _ _ _ hpl (by simpa using hq),
            lwGo_cons_nil, lwGo_cons_nil]
          simp
      · by_cases hpu : p.isUpper = true
        · obtain ⟨hq1, hq2⟩ := hinv hpu q r rfl
          by_cases hqu : q.isUpper = true
          · rw [lwGo_cons_lower_app _ _ _ _ (toLower_isLower_of_isUpper p hpu)
              (by rw [headTest_toLower, hqu, Bool.or_true]),
              lwGo_cons_upper_app_nil _ _ _ hqu hpu, lwGo_cons_nil]
            simp
          · rw [lwGo_cons_lower_new _ _ _ _ (toLower_isLower_of_isUpper p hpu)
              (by rw [headTest_toLower, hq1, (by simpa using hqu :
                q.isUpper = false), Bool.or_false]),
              lwGo_cons_upper_new _ _ _ _ (by simpa using hqu) hpu,
              lwGo_cons_nil, lwGo_cons_nil]
            simp
        · by_cases hpd : p.isDigit = true
          · rw [toLower_eq_self_of_not_isUpper p (by simpa using hpu)]
            by_cases hqd : q.isDigit = true
            · rw [lwGo_cons_digit_app _ _ _ _ hpd
                (by rw [isDigit_toLower]; exact hqd),
                lwGo_cons_digit_app _ _ _ _ hpd hqd, lwGo_cons_nil,
                lwGo_cons_nil]
              simp [toLower_eq_self_of_not_isUpper p (by simpa using hpu)]
            · rw [lwGo_cons_digit_new _ _ _ _ hpd
                (by rw [isDigit_toLower]; simpa using hqd),
                lwGo_cons_digit_new _ _ _ _ hpd (by simpa using hqd)]
              simp [lwGo_cons_nil,
                toLower_eq_self_of_not_isUpper p (by simpa using hpu)]
          · have hw : wordChar p = false := by
              simp [wordChar, hpl, hpu, hpd]
            rw [toLower_eq_self_of_not_isUpper p (by simpa using hpu)]
            rw [lwGo_cons_sep _ _ _ _ hw, lwGo_cons_sep _ _ _ _ hw]
            simp [lwGo_nil_nil]
  | cons c cs' ih =>
    intro p curO lLL hinv
    rw [pcF_cons]
    by_cases hb1 : (p.isLower && c.isUpper) = true
    · obtain ⟨hpl, hcu⟩ := Bool.and_eq_true_iff.mp hb1
      rw [if_pos hb1]
      have ihc := ih c [] p.isUpper (by intro _ q r h; exact absurd h (by simp))
      rw [upper_not_lower c hcu, hcu, List.map_nil] at ihc
      have hstart : lwGo [] (c :: cs') = lwGo [c] cs' := by
        rw [lwGo_nil_cons, if_pos (by simp [wordChar, hcu])]
      rw [hstart] at ihc
      show lwGo (curO.map Char.toLower)
          (Char.toLower p :: '-' ::
            (pcF false true p.isUpper (some c) cs').map Char.toLower) = _
      cases curO with
      | nil =>
        rw [List.map_nil, lwGo_nil_cons,
          if_pos (by rw [wordChar_toLower]; simp [wordChar, hpl]),
          lwGo_cons_sep _ _ _ _ (by decide), ihc]
        rw [lwGo_nil_cons, if_pos (by simp [wordChar, hpl]),
          lwGo_cons_upper_new _ _ _ _ (lower_not_upper p hpl) hcu]
        rfl
      | cons q r =>
        by_cases hq : (q.isLower || q.isUpper) = true
        · rw [List.map_cons,
            lwGo_cons_lower_app _ _ _ _ (toLower_isLower_of_isLower p hpl)
              (by rw [headTest_toLower]; exact hq),
            lwGo_cons_sep _ _ _ _ (by decide), ihc,
            lwGo_cons_lower_app _ _ _ _ hpl hq,
            lwGo_cons_upper_new _ _ _ _ (lower_not_upper p hpl) hcu]
          simp
        · rw [List.map_cons,
            lwGo_cons_lower_new _ _ _ _ (toLower_isLower_of_isLower p hpl)
              (by rw [headTest_toLower]; simpa using hq),
            lwGo_cons_sep _ _ _ _ (by decide), ihc,
            lwGo_cons_lower_new _ _ _ _ hpl (by simpa using hq),
            lwGo_cons_upper_new _ _ _ _ (lower_not_upper p hpl) hcu]
          simp
    · by_cases hb2 : (p.isUpper && lLL && c.isLower) = true
      · rw [if_neg (by simpa using hb1), if_pos hb2]
        obtain ⟨hpb, hcl⟩ := Bool.and_eq_true_iff.mp hb2
        obtain ⟨hpu, -⟩ := Bool.and_eq_true_iff.mp hpb
        have ihc := ih c [p] false (by
          intro hcu q r h
          rw [lower_not_upper c hcl] at hcu
          exact absurd hcu (by simp))
        rw [hcl, lower_not_upper c hcl] at ihc
        show lwGo (curO.map Char.toLower)
            ('-' :: Char.toLower p ::
              (pcF true false false (some c) cs').map Char.toLower) = _
        cases curO with
        | nil =>
          rw [List.map_nil, lwGo_nil_cons, if_neg (by decide),
            lwGo_nil_cons,
            if_pos (by rw [wordChar_toLower]; simp [wordChar, hpu])]
          rw [List.map_singleton] at ihc
          rw [ihc, lwGo_nil_cons, if_pos (by simp [wordChar, hpu])]
        | cons q r =>
          obtain ⟨hq1, hq2⟩ := hinv hpu q r rfl
          rw [List.map_cons, lwGo_cons_sep _ _ _ _ (by decide),
            lwGo_nil_cons,
            if_pos (by rw [wordChar_toLower]; simp [wordChar, hpu])]
          rw [List.map_singleton] at ihc
          rw [ihc]
          by_cases hqu : q.isUpper = true
          · rw [lwGo_cons_upper_break _ _ _ _ _ hqu hpu hcl]
            simp
          · rw [lwGo_cons_upper_new _ _ _ _ (by simpa using hqu) hpu]
            simp
      · rw [if_neg (by simpa using hb1), if_neg (by simpa using hb2)]
        show lwGo (curO.map Char.toLower)
            (Char.toLower p ::
              (pcF c.isLower c.isUpper p.isUpper (some c) cs').map
                Char.toLower) = _
        cases curO with
        | nil =>
          by_cases hw : wordChar p = true
          · have ihc := ih c [p] p.isUpper (by
              intro hcu q r h
              injection h with h1 h2
              subst h1
              constructor
              · by_cases hpl : p.isLower = true
                · exact absurd (by simp [hpl, hcu] : (p.isLower && c.isUpper) = true) hb1
                · simpa using hpl
              · exact fun h3 => h3)
            rw [List.map_nil, lwGo_nil_cons,
              if_pos (by rw [wordChar_toLower]; exact hw),
              lwGo_nil_cons, if_pos hw]
            rw [List.map_singleton] at ihc
            exact ihc
          · have ihc := ih c [] p.isUpper
              (by intro _ q r h; exact absurd h (by simp))
            rw [List.map_nil] at ihc
            rw [List.map_nil, lwGo_nil_cons,
              if_neg (by rw [wordChar_toLower]; simpa using hw),
              lwGo_nil_cons, if_neg (by simpa using hw)]
            exact ihc
        | cons q r =>
          by_cases hpl : p.isLower = true
          · have hcu : c.isUpper = false := by
              by_cases h : c.isUpper = true
              · exact absurd (by simp [hpl, h] : (p.isLower && c.isUpper) = true) hb1
              · simpa using h
            by_cases hq : (q.isLower || q.isUpper) = true
            · have ihc := ih c (p :: q :: r) p.isUpper (by
                intro hcu' q' r' h
                rw [hcu] at hcu'
                exact absurd hcu' (by simp))
              rw [List.map_cons,
                lwGo_cons_lower_app _ _ _ _ (toLower_isLower_of_isLower p hpl)
                  (by rw [headTest_toLower]; exact hq),
                lwGo_cons_lower_app _ _ _ _ hpl hq]
              rw [List.map_cons, List.map_cons] at ihc
              exact ihc
            · have ihc := ih c [p] p.isUpper (by
                intro hcu' q' r' h
                rw [hcu] at hcu'
                exact absurd hcu' (by simp))
              rw [List.map_singleton] at ihc
              rw [List.map_cons,
                lwGo_cons_lower_new _ _ _ _ (toLower_isLower_of_isLower p hpl)
                  (by rw [headTest_toLower]; simpa using hq),
                lwGo_cons_lower_new _ _ _ _ hpl (by simpa using hq), ihc]
              simp
          · by_cases hpu : p.isUpper = true
            · obtain ⟨hq1, hq2⟩ := hinv hpu q r rfl
              by_cases hqu : q.isUpper = true
              · have hlLL : lLL = true := hq2 hqu
                have hcl : c.isLower = false := by
                  by_cases h : c.isLower = true
                  · exact absurd (by simp [hpu, hlLL, h] :
                      (p.isUpper && lLL && c.isLower) = true) hb2
                  · simpa using h
                have ihc := ih c (p :: q :: r) p.isUpper (by
                  intro _ q' r' h
                  injection h with h1 h2
                  subst h1
                  exact ⟨upper_not_lower p hpu, fun _ => by rw [hpu]⟩)
                rw [List.map_cons,
                  lwGo_cons_lower_app _ _ _ _ (toLower_isLower_of_isUpper p hpu)
                    (by rw [headTest_toLower, hqu, Bool.or_true]),
                  lwGo_cons_upper_app_cons _ _ _ _ _ hqu hpu hcl]
                rw [List.map_cons, List.map_cons] at ihc
                exact ihc
              · have ihc := ih c [p] p.isUpper (by
                  intro _ q' r' h
                  injection h with h1 h2
                  subst h1
                  exact ⟨upper_not_lower p hpu, fun _ => by rw [hpu]⟩)
                rw [List.map_singleton] at ihc
                rw [List.map_cons,
                  lwGo_cons_lower_new _ _ _ _ (toLower_isLower_of_isUpper p hpu)
                    (by rw [headTest_toLower, hq1, (by simpa using hqu :
                      q.isUpper = false), Bool.or_false]),
                  lwGo_cons_upper_new _ _ _ _ (by simpa using hqu) hpu, ihc]
                simp
            · by_cases hpd : p.isDigit = true
              · rw [toLower_eq_self_of_not_isUpper p (by simpa using hpu)]
                by_cases hqd : q.isDigit = true
                · have ihc := ih c (p :: q :: r) p.isUpper (by
                    intro hcu' q' r' h
                    injection h with h1 h2
                    subst h1
                    exact ⟨digit_not_lower p hpd,
                      fun hu => absurd hu (by simp [digit_not_upper p hpd])⟩)
                  rw [List.map_cons,
                    lwGo_cons_digit_app _ _ _ _ hpd
                      (by rw [isDigit_toLower]; exact hqd),
                    lwGo_cons_digit_app _ _ _ _ hpd hqd]
                  rw [List.map_cons, List.map_cons,
                    toLower_eq_self_of_not_isUpper p (by simpa using hpu)] at ihc
                  exact ihc
                · have ihc := ih c [p] p.isUpper (by
                    intro hcu' q' r' h
                    injection h with h1 h2
                    subst h1
                    exact ⟨digit_not_lower p hpd,
                      fun hu => absurd hu (by simp [digit_not_upper p hpd])⟩)
                  rw [List.map_singleton,
                    toLower_eq_self_of_not_isUpper p (by simpa using hpu)] at ihc
                  rw [List.map_cons,
                    lwGo_cons_digit_new _ _ _ _ hpd
                      (by rw [isDigit_toLower]; simpa using hqd),
                    lwGo_cons_digit_new _ _ _ _ hpd (by simpa using hqd), ihc]
                  simp
              · have hw : wordChar p = false := by
                  simp [wordChar, hpl, hpu, hpd]
                have ihc := ih c [] p.isUpper
                  (by intro _ q' r' h; exact absurd h (by simp))
                rw [List.map_nil] at ihc
                rw [toLower_eq_self_of_not_isUpper p (by simpa using hpu),
                  List.map_cons, lwGo_cons_sep _ _ _ _ hw,
                  lwGo_cons_sep _ _ _ _ hw, ihc]
                simp

/-- Corollary of the simulation: lowercasing the `preserveCamelCase`
output tokenizes to the lowercased tokens of the original string. -/
theorem preserveCamelCase_lower_sim (cs : List Char) :
    lwGo [] ((preserveCamelCase cs).map Char.toLower)
      = (lwGo [] cs).map (List.map Char.toLower) := by
  cases cs with
  | nil => rfl
  | cons c cs' =>
    show lwGo [] ((pcF false false false none (c :: cs')).map Char.toLower) = _
    rw [show pcF false false false none (c :: cs')
        = pcF c.isLower c.isUpper false (some c) cs' from by
      rw [pcF_cons]; simp [Option.toList]]
    exact pcF_lower_sim cs' c [] false
      (by intro _ q r h; exact absurd h (by simp))

theorem mem_dropWhile_of_not {α : Type} (p : α → Bool) :
    ∀ (l : List α) (c : α), c ∈ l → p c = false → c ∈ l.dropWhile p := by
  intro l
  induction l with
  | nil => intro c h _; exact absurd h (by simp)
  | cons x xs ih =>
    intro c h hc
    rw [List.dropWhile_cons]
    by_cases hx : p x = true
    · rw [if_pos hx]
      rcases List.mem_cons.mp h with rfl | h'
      · rw [hc] at hx; exact absurd hx (by simp)
      · exact ih c h' hc
    · rw [if_neg hx]
      exact h

theorem mem_of_mem_dropWhile {α : Type} (p : α → Bool) :
    ∀ (l : List α) (c : α), c ∈ l.dropWhile p → c ∈ l := by
  intro l
  induction l with
  | nil => intro c h; exact absurd h (by simp)
  | cons x xs ih =>
    intro c h
    rw [List.dropWhile_cons] at h
    by_cases hx : p x = true
    · rw [if_pos hx] at h
      exact List.mem_cons_of_mem x (ih c h)
    · rw [if_neg hx] at h
      exact h

theorem dropWhile_head_false {α : Type} (p : α → Bool) :
    ∀ (l : List α) (c : α) (r : List α), l.dropWhile p = c :: r →
      p c = false := by
  intro l
  induction l with
  | nil => intro c r h; simp at h
  | cons x xs ih =>
    intro c r h
    rw [List.dropWhile_cons] at h
    by_cases hx : p x = true
    · rw [if_pos hx] at h
      exact ih c r h
    · rw [if_neg hx] at h
      injection h with h1 _
      subst h1
      simpa using hx

theorem jsspace_not_word (c : Char) (h : isJsSpace c = true) :
    wordChar c = false := by
  unfold isJsSpace at h
  have h6 : ((((c = ' ' ∨ c = '\t') ∨ c = '\n') ∨ c = '\r') ∨ c = '\x0b')
      ∨ c = '\x0c' := by simpa using h
  rcases h6 with ((((rfl | rfl) | rfl) | rfl) | rfl) | rfl <;> decide

theorem mem_jsTrim (cs : List Char) (c : Char) (h : c ∈ jsTrim cs) :
    c ∈ cs := by
  unfold jsTrim at h
  rw [List.mem_reverse] at h
  have h1 := mem_of_mem_dropWhile _ _ _ h
  rw [List.mem_reverse] at h1
  exact mem_of_mem_dropWhile _ _ _ h1

theorem word_mem_jsTrim (cs : List Char) (c : Char) (h : c ∈ cs)
    (hw : wordChar c = true) : c ∈ jsTrim cs := by
  have hns : isJsSpace c = false := by
    by_cases hs : isJsSpace c = true
    · rw [jsspace_not_word c hs] at hw; exact absurd hw (by simp)
    · simpa using hs
  unfold jsTrim
  rw [List.mem_reverse]
  apply mem_dropWhile_of_not _ _ _ _ hns
  rw [List.mem_reverse]
  exact mem_dropWhile_of_not _ _ _ h hns

theorem lwords_nonword_lead (pre v : List Char)
    (h : ∀ c ∈ pre, wordChar c = false) :
    lwords (pre ++ v) = lwords v := by
  induction pre with
  | nil => rfl
  | cons c pre' ih =>
    show lwGo [] (c :: (pre' ++ v)) = _
    rw [lwGo_nil_cons, if_neg (by simp [h c (by simp)])]
    exact ih (fun d hd => h d (by simp [hd]))

/-- A non-word tail is consumed without emitting any further token. -/
theorem lwGo_nonword_all (suf : List Char)
    (h : ∀ c ∈ suf, wordChar c = false) :
    ∀ cur, lwGo cur suf = lwGo cur [] := by
  induction suf with
  | nil => intro cur; rfl
  | cons c suf' ih =>
    intro cur
    have hc : wordChar c = false := h c (by simp)
    have ih' := ih (fun d hd => h d (by simp [hd]))
    cases cur with
    | nil =>
      rw [lwGo_nil_cons, if_neg (by simp [hc])]
      exact ih' []
    | cons p cur' =>
      rw [lwGo_cons_sep _ _ _ _ hc, ih' [], lwGo_nil_nil, lwGo_cons_nil]

/-- Appending a non-word suffix does not change the tokens. -/
theorem lwGo_append_nonword (suf : List Char)
    (h : ∀ c ∈ suf, wordChar c = false) :
    ∀ (v cur : List Char), lwGo cur (v ++ suf) = lwGo cur v := by
  intro v
  induction v with
  | nil =>
    intro cur
    rw [List.nil_append]
    exact lwGo_nonword_all suf h cur
  | cons c v' ih =>
    intro cur
    rw [List.cons_append]
    by_cases hcl : c.isLower = true
    · cases cur with
      | nil =>
        rw [lwGo_nil_cons, lwGo_nil_cons,
          if_pos (by simp [wordChar, hcl]), if_pos (by simp [wordChar, hcl])]
        exact ih [c]
      | cons p cur' =>
        by_cases hp : (p.isLower || p.isUpper) = true
        · rw [lwGo_cons_lower_app _ _ _ _ hcl hp,
            lwGo_cons_lower_app _ _ _ _ hcl hp]
          exact ih (c :: p :: cur')
        · rw [lwGo_cons_lower_new _ _ _ _ hcl (by simpa using hp),
            lwGo_cons_lower_new _ _ _ _ hcl (by simpa using hp)]
          exact congrArg _ (ih [c])
    · by_cases hcu : c.isUpper = true
      · cases cur with
        | nil =>
          rw [lwGo_nil_cons, lwGo_nil_cons,
            if_pos (by simp [wordChar, hcu]), if_pos (by simp [wordChar, hcu])]
          exact ih [c]
        | cons p cur' =>
          by_cases hp : p.isUpper = true
          · cases v' with
            | nil =>
              rw [lwGo_cons_upper_app_nil _ _ _ hp hcu]
              cases suf with
              | nil => exact lwGo_cons_upper_app_nil _ _ _ hp hcu
              | cons s suf'' =>
                rw [List.nil_append]
                have hs : s.isLower = false :=
                  (nonword_not_classes s (h s (by simp))).1
                rw [lwGo_cons_upper_app_cons _ _ _ _ _ hp hcu hs,
                  lwGo_nonword_all (s :: suf'') (fun d hd => h d hd)
                    (c :: p :: cur'),
                  lwGo_cons_nil]
            | cons d v'' =>
              rw [List.cons_append]
              by_cases hd : d.isLower = true
              · rw [lwGo_cons_upper_break _ _ _ _ _ hp hcu hd,
                  lwGo_cons_upper_break _ _ _ _ _ hp hcu hd]
                exact congrArg _ (ih [c])
              · rw [lwGo_cons_upper_app_cons _ _ _ _ _ hp hcu
                  (by simpa using hd),
                  lwGo_cons_upper_app_cons _ _ _ _ _ hp hcu
                  (by simpa using hd)]
                exact ih (c :: p :: cur')
          · rw [lwGo_cons_upper_new _ _ _ _ (by simpa using hp) hcu,
              lwGo_cons_upper_new _ _ _ _ (by simpa using hp) hcu]
            exact congrArg _ (ih [c])
      · by_cases hcd : c.isDigit = true
        · cases cur with
          | nil =>
            rw [lwGo_nil_cons, lwGo_nil_cons,
              if_pos (by simp [wordChar, hcd]),
              if_pos (by simp [wordChar, hcd])]
            exact ih [c]
          | cons p cur' =>
            by_cases hp : p.isDigit = true
            · rw [lwGo_cons_digit_app _ _ _ _ hcd hp,
                lwGo_cons_digit_app _ _ _ _ hcd hp]
              exact ih (c :: p :: cur')
            · rw [lwGo_cons_digit_new _ _ _ _ hcd (by simpa using hp),
                lwGo_cons_digit_new _ _ _ _ hcd (by simpa using hp)]
              exact congrArg _ (ih [c])
        · have hw : wordChar c = false := by simp [wordChar, hcl, hcu, hcd]
          cases cur with
          | nil =>
            rw [lwGo_nil_cons, lwGo_nil_cons, if_neg (by simp [hw]),
              if_neg (by simp [hw])]
            exact ih []
          | cons p cur' =>
            rw [lwGo_cons_sep _ _ _ _ hw, lwGo_cons_sep _ _ _ _ hw]
            exact congrArg _ (ih [])

theorem lwords_append_nonword (v suf : List Char)
    (h : ∀ c ∈ suf, wordChar c = false) :
    lwords (v ++ suf) = lwords v :=
  lwGo_append_nonword suf h v []

/-- Trimming JavaScript whitespace does not change the tokens. -/
theorem lwords_jsTrim (cs : List Char) : lwords (jsTrim cs) = lwords cs := by
  have h1 : lwords cs = lwords (cs.dropWhile isJsSpace) := by
    conv =>
      lhs
      rw [← List.takeWhile_append_dropWhile (p := isJsSpace) (l := cs)]
    apply lwords_nonword_lead
    intro c hc
    exact jsspace_not_word c (List.mem_takeWhile_imp hc)
  have h2 : cs.dropWhile isJsSpace
      = jsTrim cs
        ++ ((cs.dropWhile isJsSpace).reverse.takeWhile isJsSpace).reverse := by
    unfold jsTrim
    conv =>
      lhs
      rw [← List.reverse_reverse (cs.dropWhile isJsSpace),
        ← List.takeWhile_append_dropWhile (p := isJsSpace)
          (l := (cs.dropWhile isJsSpace).reverse)]
    rw [List.reverse_append]
  rw [h1, h2]
  refine (lwords_append_nonword _ _ ?_).symm
  intro c hc
  rw [List.mem_reverse] at hc
  exact jsspace_not_word c (List.mem_takeWhile_imp hc)

/-- Characters of the `preserveCamelCase` output: dashes, the pending
character, and input characters. -/
theorem mem_pcF (cs : List Char) :
    ∀ (a b d : Bool) (pend : Option Char) (c : Char),
      c ∈ pcF a b d pend cs → c = '-' ∨ c ∈ pend.toList ∨ c ∈ cs := by
  induction cs with
  | nil =>
    intro a b d pend c hc
    rw [pcF_nil] at hc
    exact Or.inr (Or.inl hc)
  | cons x cs' ih =>
    intro a b d pend c hc
    have hrec : c ∈ pcF x.isLower x.isUpper b (some x) cs'
        ∨ c ∈ pcF false true b (some x) cs'
        ∨ c ∈ pcF true false false (some x) cs' →
        c = '-' ∨ c ∈ pend.toList ∨ c ∈ x :: cs' := by
      intro hr
      have : c = '-' ∨ c ∈ (some x).toList ∨ c ∈ cs' := by
        rcases hr with h | h | h
        · exact ih _ _ _ _ c h
        · exact ih _ _ _ _ c h
        · exact ih _ _ _ _ c h
      rcases this with h | h | h
      · exact Or.inl h
      · exact Or.inr (Or.inr (by simp at h; simp [h]))
      · exact Or.inr (Or.inr (by simp [h]))
    rw [pcF_cons] at hc
    split_ifs at hc with h1 h2
    · rcases List.mem_append.mp hc with h | h
      · exact Or.inr (Or.inl h)
      · rcases List.mem_cons.mp h with rfl | h'
        · exact Or.inl rfl
        · exact hrec (Or.inr (Or.inl h'))
    · rcases List.mem_cons.mp hc with rfl | h
      · exact Or.inl rfl
      · rcases List.mem_append.mp h with h' | h'
        · exact Or.inr (Or.inl h')
        · exact hrec (Or.inr (Or.inr h'))
    · rcases List.mem_append.mp hc with h | h
      · exact Or.inr (Or.inl h)
      · exact hrec (Or.inl h)

/-- `preserveCamelCase` keeps every input character. -/
theorem mem_pcF_of_mem (cs : List Char) :
    ∀ (a b d : Bool) (pend : Option Char) (c : Char),
      (c ∈ pend.toList ∨ c ∈ cs) → c ∈ pcF a b d pend cs := by
  induction cs with
  | nil =>
    intro a b d pend c hc
    rw [pcF_nil]
    rcases hc with h | h
    · exact h
    · simp at h
  | cons x cs' ih =>
    intro a b d pend c hc
    have hx : c ∈ pend.toList ∨ (c = x ∨ c ∈ cs') := by
      rcases hc with h | h
      · exact Or.inl h
      · exact Or.inr (List.mem_cons.mp h)
    rw [pcF_cons]
    split_ifs with h1 h2
    · rcases hx with h | h
      · exact List.mem_append.mpr (Or.inl h)
      · refine List.mem_append.mpr (Or.inr (List.mem_cons.mpr (Or.inr ?_)))
        apply ih
        rcases h with rfl | h'
        · exact Or.inl (by simp)
        · exact Or.inr h'
    · rcases hx with h | h
      · exact List.mem_cons.mpr (Or.inr (List.mem_append.mpr (Or.inl h)))
      · refine List.mem_cons.mpr (Or.inr (List.mem_append.mpr (Or.inr ?_)))
        apply ih
        rcases h with rfl | h'
        · exact Or.inl (by simp)
        · exact Or.inr h'
    · rcases hx with h | h
      · exact List.mem_append.mpr (Or.inl h)
      · refine List.mem_append.mpr (Or.inr ?_)
        apply ih
        rcases h with rfl | h'
        · exact Or.inl (by simp)
        · exact Or.inr h'

theorem pointwise_of_map_eq_self {α : Type} (f : α → α) :
    ∀ (l : List α), l.map f = l → ∀ c ∈ l, f c = c := by
  intro l
  induction l with
  | nil => intro _ c hc; simp at hc
  | cons x xs ih =>
    intro h c hc
    rw [List.map_cons] at h
    injection h with h1 h2
    rcases List.mem_cons.mp hc with rfl | hc'
    · exact h1
    · exact ih h2 c hc'

theorem keyChar_toLower (c : Char) : keyChar (Char.toLower c) = keyChar c := by
  unfold keyChar
  rw [wordChar_toLower, isSep_toLower]

/-- Every character of a token comes from the scanner state or the
input. -/
theorem lwGo_mem_subset :
    ∀ (cs cur t : List Char), t ∈ lwGo cur cs → ∀ c ∈ t, c ∈ cur ∨ c ∈ cs := by
  intro cs
  induction cs with
  | nil =>
    intro cur t ht c hc
    cases cur with
    | nil => rw [lwGo_nil_nil] at ht; simp at ht
    | cons p cur' =>
      rw [lwGo_cons_nil, List.mem_singleton] at ht
      subst ht
      rw [List.mem_reverse] at hc
      exact Or.inl hc
  | cons x cs' ih =>
    intro cur t ht c hc
    have hpush : c ∈ [x] ∨ c ∈ cs' → c ∈ cur ∨ c ∈ x :: cs' := by
      intro h
      rcases h with h | h
      · rw [List.mem_singleton] at h; exact Or.inr (by simp [h])
      · exact Or.inr (by simp [h])
    have happ : ∀ cur', c ∈ x :: cur' ∨ c ∈ cs' →
        (c ∈ cur' ∨ c ∈ x :: cs') := by
      intro cur' h
      rcases h with h | h
      · rcases List.mem_cons.mp h with rfl | h'
        · exact Or.inr (by simp)
        · exact Or.inl h'
      · exact Or.inr (by simp [h])
    by_cases hxl : x.isLower = true
    · cases cur with
      | nil =>
        rw [lwGo_nil_cons, if_pos (by simp [wordChar, hxl])] at ht
        exact hpush (ih [x] t ht c hc)
      | cons p cur' =>
        by_cases hp : (p.isLower || p.isUpper) = true
        · rw [lwGo_cons_lower_app _ _ _ _ hxl hp] at ht
          exact happ (p :: cur') (ih _ t ht c hc)
        · rw [lwGo_cons_lower_new _ _ _ _ hxl (by simpa using hp)] at ht
          rcases List.mem_cons.mp ht with rfl | ht'
          · rw [List.mem_reverse] at hc; exact Or.inl hc
          · exact hpush (ih [x] t ht' c hc)
    · by_cases hxu : x.isUpper = true
      · cases cur with
        | nil =>
          rw [lwGo_nil_cons, if_pos (by simp [wordChar, hxu])] at ht
          exact hpush (ih [x] t ht c hc)
        | cons p cur' =>
          by_cases hp : p.isUpper = true
          · cases cs' with
            | nil =>
              rw [lwGo_cons_upper_app_nil _ _ _ hp hxu,
                List.mem_singleton] at ht
              subst ht
              rw [List.mem_reverse] at hc
              exact happ (p :: cur') (Or.inl hc)
            | cons d cs'' =>
              by_cases hd : d.isLower = true
              · rw [lwGo_cons_upper_break _ _ _ _ _ hp hxu hd] at ht
                rcases List.mem_cons.mp ht with rfl | ht'
                · rw [List.mem_reverse] at hc; exact Or.inl hc
                · exact hpush (ih [x] t ht' c hc)
              · rw [lwGo_cons_upper_app_cons _ _ _ _ _ hp hxu
                  (by simpa using hd)] at ht
                exact happ (p :: cur') (ih _ t ht c hc)
          · rw [lwGo_cons_upper_new _ _ _ _ (by simpa using hp) hxu] at ht
            rcases List.mem_cons.mp ht with rfl | ht'
            · rw [List.mem_reverse] at hc; exact Or.inl hc
            · exact hpush (ih [x] t ht' c hc)
      · by_cases hxd : x.isDigit = true
        · cases cur with
          | nil =>
            rw [lwGo_nil_cons, if_pos (by simp [wordChar, hxd])] at ht
            exact hpush (ih [x] t ht c hc)
          | cons p cur' =>
            by_cases hp : p.isDigit = true
            · rw [lwGo_cons_digit_app _ _ _ _ hxd hp] at ht
              exact happ (p :: cur') (ih _ t ht c hc)
            · rw [lwGo_cons_digit_new _ _ _ _ hxd (by simpa using hp)] at ht
              rcases List.mem_cons.mp ht with rfl | ht'
              · rw [List.mem_reverse] at hc; exact Or.inl hc
              · exact hpush (ih [x] t ht' c hc)
        · have hw : wordChar x = false := by simp [wordChar, hxl, hxu, hxd]
          cases cur with
          | nil =>
            rw [lwGo_nil_cons, if_neg (by simp [hw])] at ht
            rcases ih [] t ht c hc with h | h
            · simp at h
            · exact Or.inr (by simp [h])
          | cons p cur' =>
            rw [lwGo_cons_sep _ _ _ _ hw] at ht
            rcases List.mem_cons.mp ht with rfl | ht'
            · rw [List.mem_reverse] at hc; exact Or.inl hc
            · rcases ih [] t ht' c hc with h | h
              · simp at h
              · exact Or.inr (by simp [h])

theorem mem_of_mem_lwords (cs t : List Char) (ht : t ∈ lwords cs) (c : Char)
    (hc : c ∈ t) : c ∈ cs := by
  rcases lwGo_mem_subset cs [] t ht c hc with h | h
  · simp at h
  · exact h

/-- One emitted character advances the tail pointer by one. -/
theorem tokTail_step (c p : Char) (cur cs : List Char) :
    tokTail (p :: cur).length (lwGo (c :: p :: cur) cs)
      = c :: tokTail (c :: p :: cur).length (lwGo (c :: p :: cur) cs) := by
  obtain ⟨m, rest, hm⟩ := lwGo_first_token cs c (p :: cur)
  have e1 : ((c :: p :: cur).reverse ++ m).drop (p :: cur).length = c :: m := by
    have e : (c :: p :: cur).reverse ++ m = (p :: cur).reverse ++ (c :: m) := by
      simp
    rw [e, ← List.length_reverse, List.drop_left]
  have e2 : ((c :: p :: cur).reverse ++ m).drop (c :: p :: cur).length = m := by
    rw [← List.length_reverse, List.drop_left]
  rw [hm]
  simp only [tokTail]
  rw [e1, e2]
  simp

theorem renderCap_lwGo (c : Char) (cs : List Char) :
    renderCap (lwGo [c] cs) = c.toUpper :: tokTail 1 (lwGo [c] cs) := by
  obtain ⟨m, rest, hm⟩ := lwGo_first_token cs c []
  rw [hm]
  simp [renderCap, capFirst, tokTail]

theorem renderTokens_lwGo (c : Char) (cs : List Char) :
    renderTokens (lwGo [c] cs) = c :: tokTail 1 (lwGo [c] cs) := by
  obtain ⟨m, rest, hm⟩ := lwGo_first_token cs c []
  rw [hm]
  simp [renderTokens, tokTail]

/-- The joint invariant of the second half of the camelcase pipeline
(separator replacement then digit fix) against the tokenizer, over a
lowercased key-alphabet stream.  First half: mid-token, having just
emitted the word character `p` (and `cur` more characters of the current
token before it); the rest of the pipeline output is the tail of the
token list.  Second half: inside a separator run (`pend` nonempty); the
rest of the pipeline output renders every following token capitalized. -/
theorem pipeSim :
    ∀ (n : Nat) (zs : List Char), zs.length ≤ n →
      (∀ c ∈ zs, keyChar c = true ∧ c.isUpper = false) →
      ((∀ (p : Char) (cur : List Char), p.isUpper = false →
          wordChar p = true →
          digitFixGo p.isDigit (srGo [] zs)
            = tokTail (p :: cur).length (lwGo (p :: cur) zs))
        ∧ (∀ (pend : List Char) (pd : Bool), pend ≠ [] →
            digitFixGo pd (srGo pend zs) = renderCap (lwGo [] zs))) := by
  intro n
  induction n with
  | zero =>
    intro zs hlen _
    have hz : zs = [] := List.eq_nil_of_length_eq_zero
      (Nat.le_zero.mp hlen)
    subst hz
    constructor
    · intro p cur _ _
      show ([] : List Char) = tokTail (p :: cur).length [(p :: cur).reverse]
      simp [tokTail, List.drop_eq_nil_of_le]
    · intro pend pd _
      rfl
  | succ n ihn =>
    intro zs hlen halpha
    cases zs with
    | nil => exact ihn [] (by simp) (by simp)
    | cons c cs =>
      have hc := halpha c (by simp)
      have halpha' : ∀ x ∈ cs, keyChar x = true ∧ x.isUpper = false :=
        fun x hx => halpha x (by simp [hx])
      have hlen' : cs.length ≤ n := Nat.succ_le_succ_iff.mp
        (by simpa using hlen)
      have ihcs := ihn cs hlen' halpha'
      constructor
      · intro p cur hpu hpw
        by_cases hsep : isSep c = true
        · rw [show srGo [] (c :: cs) = srGo [c] cs from by
            simp [srGo, hsep]]
          rw [ihcs.2 [c] p.isDigit (by simp)]
          rw [lwGo_cons_sep _ _ _ _ (sep_not_word c hsep)]
          simp [tokTail, renderCap, List.drop_eq_nil_of_le]
        · have hcw : wordChar c = true := by
            have h1 := hc.1
            unfold keyChar at h1
            rw [(by simpa using hsep : isSep c = false), Bool.or_false] at h1
            exact h1
          rw [show srGo [] (c :: cs) = c :: srGo [] cs from by
            simp [srGo, (by simpa using hsep : isSep c = false)]]
          rw [show digitFixGo p.isDigit (c :: srGo [] cs)
              = (if p.isDigit then c.toUpper else c)
                :: digitFixGo c.isDigit (srGo [] cs) from rfl]
          by_cases hpd : p.isDigit = true
          · by_cases hcd : c.isDigit = true
            · rw [if_pos hpd, lwGo_cons_digit_app _ _ _ _ hcd hpd,
                toUpper_eq_self_of_not_isLower c (digit_not_lower c hcd),
                tokTail_step c p cur cs]
              exact congrArg _ (ihcs.1 c (p :: cur) (digit_not_upper c hcd)
                (by simp [wordChar, hcd]))
            · have hcl : c.isLower = true := by
                have h1 := hcw
                simp [wordChar, hc.2, (by simpa using hcd : c.isDigit = false)]
                  at h1
                exact h1
              rw [if_pos hpd, lwGo_cons_lower_new _ _ _ _ hcl
                (by simp [digit_not_lower p hpd, hpu])]
              have e : tokTail (p :: cur).length
                  ((p :: cur).reverse :: lwGo [c] cs)
                  = renderCap (lwGo [c] cs) := by
                simp [tokTail, renderCap, List.drop_eq_nil_of_le]
              rw [e, renderCap_lwGo]
              exact congrArg _ (ihcs.1 c [] (lower_not_upper c hcl)
                (by simp [wordChar, hcl]))
          · rw [if_neg (by simpa using hpd)]
            by_cases hcd : c.isDigit = true
            · rw [lwGo_cons_digit_new _ _ _ _ hcd (by simpa using hpd)]
              have e : tokTail (p :: cur).length
                  ((p :: cur).reverse :: lwGo [c] cs)
                  = renderCap (lwGo [c] cs) := by
                simp [tokTail, renderCap, List.drop_eq_nil_of_le]
              rw [e, renderCap_lwGo,
                toUpper_eq_self_of_not_isLower c (digit_not_lower c hcd)]
              exact congrArg _ (ihcs.1 c [] (digit_not_upper c hcd)
                (by simp [wordChar, hcd]))
            · have hcl : c.isLower = true := by
                have h1 := hcw
                simp [wordChar, hc.2, (by simpa using hcd : c.isDigit = false)]
                  at h1
                exact h1
              have hpl : p.isLower = true := by
                have h1 := hpw
                simp [wordChar, hpu, (by simpa using hpd : p.isDigit = false)]
                  at h1
                exact h1
              rw [lwGo_cons_lower_app _ _ _ _ hcl (by simp [hpl]),
                tokTail_step c p cur cs]
              exact congrArg _ (ihcs.1 c (p :: cur) (lower_not_upper c hcl)
                (by simp [wordChar, hcl]))
      · intro pend pd hpend
        by_cases hsep : isSep c = true
        · rw [show srGo pend (c :: cs) = srGo (c :: pend) cs from by
            simp [srGo, hsep]]
          rw [ihcs.2 (c :: pend) pd (by simp)]
          rw [show lwGo [] (c :: cs) = lwGo [] cs from by
            rw [lwGo_nil_cons, if_neg (by simp [sep_not_word c hsep])]]
        · have hcw : wordChar c = true := by
            have h1 := hc.1
            unfold keyChar at h1
            rw [(by simpa using hsep : isSep c = false), Bool.or_false] at h1
            exact h1
          rw [show srGo pend (c :: cs) = c.toUpper :: srGo [] cs from by
            cases pend with
            | nil => exact absurd rfl hpend
            | cons y ys =>
              simp [srGo, (by simpa using hsep : isSep c = false), hcw]]
          rw [show digitFixGo pd (c.toUpper :: srGo [] cs)
              = (if pd then c.toUpper.toUpper else c.toUpper)
                :: digitFixGo (c.toUpper).isDigit (srGo [] cs) from rfl]
          rw [show (if pd then c.toUpper.toUpper else c.toUpper) = c.toUpper
            from by cases pd <;> simp [toUpper_toUpper]]
          rw [isDigit_toUpper]
          rw [show lwGo [] (c :: cs) = lwGo [c] cs from by
            rw [lwGo_nil_cons, if_pos hcw]]
          rw [renderCap_lwGo]
          exact congrArg _ (ihcs.1 c [] hc.2 hcw)

/-- The second half of the camelcase pipeline renders the tokens of a
lowercased key-alphabet stream that does not start with a separator. -/
theorem digitFix_sepReplace (z : List Char)
    (halpha : ∀ c ∈ z, keyChar c = true ∧ c.isUpper = false)
    (hhead : ∀ c r, z = c :: r → isSep c = false) :
    digitFix (sepReplace z) = renderTokens (lwords z) := by
  cases z with
  | nil => rfl
  | cons c cs =>
    have hc := halpha c (by simp)
    have hsep : isSep c = false := hhead c cs rfl
    have hcw : wordChar c = true := by
      have h1 := hc.1
      unfold keyChar at h1
      rw [hsep, Bool.or_false] at h1
      exact h1
    unfold digitFix sepReplace
    rw [show srGo [] (c :: cs) = c :: srGo [] cs from by simp [srGo, hsep]]
    rw [show digitFixGo false (c :: srGo [] cs)
        = c :: digitFixGo c.isDigit (srGo [] cs) from rfl]
    rw [show lwords (c :: cs) = lwGo [c] cs from by
      show lwGo [] (c :: cs) = _
      rw [lwGo_nil_cons, if_pos hcw]]
    rw [renderTokens_lwGo]
    exact congrArg _ ((pipeSim cs.length cs (le_refl _)
      (fun x hx => halpha x (by simp [hx]))).1 c [] hc.2 hcw)

/-- Zeta-reduced unfolding of `camelCaseV5`. -/
theorem camelCaseV5_eq (cs : List Char) :
    camelCaseV5 cs =
      if (jsTrim cs).length == 0 then []
      else if (jsTrim cs).length == 1 then (jsTrim cs).map Char.toLower
      else digitFix (sepReplace
        (((if !(jsTrim cs == (jsTrim cs).map Char.toLower)
            then preserveCamelCase (jsTrim cs)
            else jsTrim cs).dropWhile isSep).map Char.toLower)) := rfl

/-- camelcase v5 renders the lowercased tokens of its input: the first
token verbatim (lowercased), every later token capitalized.  The input
must be over the key alphabet and contain at least one alphanumeric. -/
theorem camelCaseV5_renderTokens (cs : List Char)
    (halpha : ∀ c ∈ cs, keyChar c = true)
    (hword : ∃ c ∈ cs, wordChar c = true) :
    camelCaseV5 cs
      = renderTokens ((lwords cs).map (List.map Char.toLower)) := by
  obtain ⟨w, hw, hww⟩ := hword
  have hwt : w ∈ jsTrim cs := word_mem_jsTrim cs w hw hww
  have halphat : ∀ c ∈ jsTrim cs, keyChar c = true :=
    fun c hc => halpha c (mem_jsTrim cs c hc)
  cases ht : jsTrim cs with
  | nil => rw [ht] at hwt; exact absurd hwt (by simp)
  | cons a u =>
    cases u with
    | nil =>
      have hwa : wordChar a = true := by
        rw [ht, List.mem_singleton] at hwt
        rw [← hwt]
        exact hww
      have hl1 : lwords [a] = [[a]] := by
        show lwGo [] [a] = _
        rw [lwGo_nil_cons, if_pos hwa]
        rfl
      rw [camelCaseV5_eq, ht]
      show [a].map Char.toLower = _
      rw [← lwords_jsTrim cs, ht, hl1]
      simp [renderTokens]
    | cons b u' =>
      have h0 : ((jsTrim cs).length == 0) = false := by rw [ht]; rfl
      have h1 : ((jsTrim cs).length == 1) = false := by rw [ht]; rfl
      rw [camelCaseV5_eq, h0, h1]
      simp only [Bool.false_eq_true, if_false]
      by_cases hup : (jsTrim cs == (jsTrim cs).map Char.toLower) = true
      · rw [show (!(jsTrim cs == (jsTrim cs).map Char.toLower)) = false
          from by rw [hup]; rfl]
        simp only [Bool.false_eq_true, if_false]
        have hfixmap : (jsTrim cs).map Char.toLower = jsTrim cs :=
          (beq_iff_eq.mp hup).symm
        have hfix : ∀ c ∈ jsTrim cs, Char.toLower c = c :=
          pointwise_of_map_eq_self _ _ hfixmap
        have e1 : ((jsTrim cs).dropWhile isSep).map Char.toLower
            = (jsTrim cs).dropWhile isSep := by
          have h2 := List.map_congr_left (l := (jsTrim cs).dropWhile isSep)
            (f := Char.toLower) (g := id)
            (fun c hc => hfix c (mem_of_mem_dropWhile _ _ _ hc))
          simpa using h2
        have e2 : lwords ((jsTrim cs).dropWhile isSep)
            = lwords (jsTrim cs) := by
          conv =>
            rhs
            rw [← List.takeWhile_append_dropWhile (p := isSep)
              (l := jsTrim cs)]
          exact (lwords_nonword_lead _ _ (fun c hc =>
            sep_not_word c (List.mem_takeWhile_imp hc))).symm
        have e3 : (lwords (jsTrim cs)).map (List.map Char.toLower)
            = lwords (jsTrim cs) := by
          have hall : ∀ tk ∈ lwords (jsTrim cs),
              List.map Char.toLower tk = tk := by
            intro tk htk
            have h2 := List.map_congr_left (l := tk) (f := Char.toLower)
              (g := id)
              (fun c hc => hfix c (mem_of_mem_lwords _ tk htk c hc))
            simpa using h2
          have h2 := List.map_congr_left (l := lwords (jsTrim cs))
            (f := List.map Char.toLower) (g := id) hall
          simpa using h2
        rw [e1, ← lwords_jsTrim cs, e3, ← e2]
        apply digitFix_sepReplace
        · intro c hc
          have hmem : c ∈ jsTrim cs := mem_of_mem_dropWhile _ _ _ hc
          exact ⟨halphat c hmem,
            by rw [← hfix c hmem]; exact isUpper_toLower c⟩
        · intro c r hz
          exact dropWhile_head_false _ _ _ _ hz
      · rw [show (!(jsTrim cs == (jsTrim cs).map Char.toLower)) = true
          from by rw [(by simpa using hup :
            (jsTrim cs == (jsTrim cs).map Char.toLower) = false)]; rfl]
        simp only [if_true]
        have hpccAlpha : ∀ c ∈ preserveCamelCase (jsTrim cs),
            keyChar c = true := by
          intro c hc
          rcases mem_pcF (jsTrim cs) _ _ _ _ c hc with rfl | h | h
          · decide
          · simp at h
          · exact halphat c h
        have hlwz : lwords (((preserveCamelCase (jsTrim cs)).dropWhile
              isSep).map Char.toLower)
            = (lwords (jsTrim cs)).map (List.map Char.toLower) := by
          have h2 : lwords ((preserveCamelCase (jsTrim cs)).map Char.toLower)
              = lwords (((preserveCamelCase (jsTrim cs)).dropWhile
                  isSep).map Char.toLower) := by
            conv =>
              lhs
              rw [← List.takeWhile_append_dropWhile (p := isSep)
                (l := preserveCamelCase (jsTrim cs)), List.map_append]
            exact lwords_nonword_lead _ _ (by
              intro x hx
              rcases List.mem_map.mp hx with ⟨y, hy, rfl⟩
              exact sep_not_word _ (by
                rw [isSep_toLower]
                exact List.mem_takeWhile_imp hy))
          rw [← h2]
          exact preserveCamelCase_lower_sim (jsTrim cs)
        have halphaz : ∀ c ∈ ((preserveCamelCase (jsTrim cs)).dropWhile
              isSep).map Char.toLower,
            keyChar c = true ∧ c.isUpper = false := by
          intro c hc
          rcases List.mem_map.mp hc with ⟨d, hd, rfl⟩
          refine ⟨?_, isUpper_toLower d⟩
          rw [keyChar_toLower]
          exact hpccAlpha d (mem_of_mem_dropWhile _ _ _ hd)
        have hheadz : ∀ c r, ((preserveCamelCase (jsTrim cs)).dropWhile
              isSep).map Char.toLower = c :: r → isSep c = false := by
          intro c r hz
          cases hd : (preserveCamelCase (jsTrim cs)).dropWhile isSep with
          | nil => rw [hd] at hz; simp at hz
          | cons d r' =>
            rw [hd, List.map_cons] at hz
            injection hz with h1 _
            subst h1
            rw [isSep_toLower]
            exact dropWhile_head_false _ _ _ _ hd
        rw [digitFix_sepReplace _ halphaz hheadz, hlwz, lwords_jsTrim]

/-- `split(sep)` then `join(sep)` is the identity. -/
theorem intercalate_splitSep (sep : Char) :
    ∀ cs : List Char, List.intercalate [sep] (splitSep sep cs) = cs := by
  intro cs
  induction cs with
  | nil => rfl
  | cons x cs' ih =>
    by_cases hx : x = sep
    · subst hx
      rw [show splitSep x (x :: cs') = [] :: splitSep x cs' from by
        simp [splitSep]]
      rw [intercalate_cons_of_ne_nil _ _ _ (splitSep_ne_nil x cs'), ih]
      simp
    · cases hs : splitSep sep cs' with
      | nil => exact absurd hs (splitSep_ne_nil sep cs')
      | cons t ts =>
        have hsplit : splitSep sep (x :: cs') = (x :: t) :: ts := by
          simp only [splitSep, if_neg hx, hs]
        rw [hsplit]
        rw [hs] at ih
        cases ts with
        | nil =>
          rw [show List.intercalate [sep] [x :: t] = x :: t from by
            simp [List.intercalate]]
          rw [show List.intercalate [sep] [t] = t from by
            simp [List.intercalate]] at ih
          rw [ih]
        | cons t2 ts2 =>
          rw [intercalate_cons_of_ne_nil _ _ _ (by simp)]
          rw [intercalate_cons_of_ne_nil _ _ _ (by simp)] at ih
          rw [← ih]
          simp

/-- Tokenizing a separator-joined list concatenates the per-piece
tokens. -/
theorem lwords_intercalate_flatten (sep : Char) (hsep : wordChar sep = false) :
    ∀ ts : List (List Char),
      lwords (List.intercalate [sep] ts) = (ts.map lwords).flatten := by
  intro ts
  induction ts with
  | nil => rfl
  | cons t ts ih =>
    cases ts with
    | nil => simp [List.intercalate]
    | cons t2 ts2 =>
      rw [intercalate_cons_of_ne_nil _ _ _ (by simp), List.append_assoc,
        List.singleton_append, lwords_append_sep sep hsep, ih]
      simp

theorem splitSep_mem_subset (sep : Char) :
    ∀ (cs t : List Char), t ∈ splitSep sep cs → ∀ c ∈ t, c ∈ cs := by
  intro cs
  induction cs with
  | nil =>
    intro t ht c hc
    rw [show splitSep sep [] = [[]] from rfl, List.mem_singleton] at ht
    subst ht
    simp at hc
  | cons x cs' ih =>
    intro t ht c hc
    by_cases hx : x = sep
    · subst hx
      rw [show splitSep x (x :: cs') = [] :: splitSep x cs' from by
        simp [splitSep]] at ht
      rcases List.mem_cons.mp ht with rfl | ht'
      · simp at hc
      · exact List.mem_cons_of_mem x (ih t ht' c hc)
    · cases hs : splitSep sep cs' with
      | nil => exact absurd hs (splitSep_ne_nil sep cs')
      | cons u us =>
        have hsplit : splitSep sep (x :: cs') = (x :: u) :: us := by
          simp only [splitSep, if_neg hx, hs]
        rw [hsplit] at ht
        rcases List.mem_cons.mp ht with rfl | ht'
        · rcases List.mem_cons.mp hc with rfl | hc'
          · simp
          · exact List.mem_cons_of_mem x (ih u (by rw [hs]; simp) c hc')
        · exact List.mem_cons_of_mem x (ih t (by rw [hs]; simp [ht']) c hc)

/-- The tokens of `deCamelCaseKey` are exactly the lowercased tokens of
the (apostrophe-free) original key. -/
theorem lwords_deCamelCaseKey (cs : List Char)
    (hap : ∀ c ∈ cs, c ≠ '\'' ∧ c ≠ '’') :
    lwords (deCamelCaseKey cs)
      = (lwords cs).map (List.map Char.toLower) := by
  unfold deCamelCaseKey
  rw [lwords_intercalate_flatten '.' (by decide), List.map_map]
  have hparts : ∀ p ∈ splitSep '_' cs,
      (lwords ∘ lodashSnakeCase) p
        = (lwords p).map (List.map Char.toLower) := by
    intro p hp
    show lwords (lodashSnakeCase p) = _
    rw [lwords_lodashSnakeCase, removeApostrophes_eq_self p
      (fun c hc => hap c (splitSep_mem_subset '_' cs p hp c hc))]
  rw [List.map_congr_left hparts]
  rw [show (fun p => (lwords p).map (List.map Char.toLower))
      = (List.map (List.map Char.toLower)) ∘ lwords from rfl]
  rw [← List.map_map, ← List.map_flatten,
    ← lwords_intercalate_flatten '_' (by decide),
    intercalate_splitSep '_' cs]

theorem keyChar_not_apostrophe (c : Char) (h : keyChar c = true) :
    c ≠ '\'' ∧ c ≠ '’' := by
  constructor
  · intro he; subst he; exact absurd h (by decide)
  · intro he; subst he; exact absurd h (by decide)

/-- Round trip of the *model* over the full key alphabet (letters,
digits, separators).  This equation is a fact about the embedded
tokenizer only: in the real program it fails on digit-bearing keys,
because real `lodash.words` emits ordinal-number tokens the model
omits (on `AB1STc` the real round trip gives `ab1StC` while
`camelCase` gives `ab1STc`).  The claim theorem below therefore
restricts it to digit-free keys, on which no ordinal token can occur
and the model is faithful. -/
theorem camelCase_roundTrip_model (cs : List Char)
    (halpha : ∀ c ∈ cs, keyChar c = true)
    (hword : ∃ c ∈ cs, wordChar c = true) :
    camelCaseV5 (deCamelCaseKey cs) = camelCaseV5 cs := by
  have htok := lwords_deCamelCaseKey cs
    (fun c hc => keyChar_not_apostrophe c (halpha c hc))
  have halpha2 : ∀ c ∈ deCamelCaseKey cs, keyChar c = true := by
    intro c hc
    unfold deCamelCaseKey at hc
    rcases mem_intercalate _ _ c hc with ⟨t, ht, hct⟩ | hdot
    · rcases List.mem_map.mp ht with ⟨p, hp, rfl⟩
      rcases mem_intercalate _ _ c hct with ⟨tk, htk, hctk⟩ | hund
      · rcases List.mem_map.mp htk with ⟨u, hu, rfl⟩
        rcases List.mem_map.mp hctk with ⟨d, hd, rfl⟩
        rw [keyChar_toLower]
        have hd2 : d ∈ removeApostrophes p := mem_of_mem_lwords _ u hu d hd
        have hd3 : d ∈ p := List.mem_of_mem_filter hd2
        exact halpha d (splitSep_mem_subset '_' cs p hp d hd3)
      · rw [List.mem_singleton] at hund; subst hund; decide
    · rw [List.mem_singleton] at hdot; subst hdot; decide
  have hword2 : ∃ c ∈ deCamelCaseKey cs, wordChar c = true := by
    by_contra hno
    have hall : ∀ c ∈ deCamelCaseKey cs, wordChar c = false := by
      intro c hc
      by_cases h : wordChar c = true
      · exact absurd ⟨c, hc, h⟩ hno
      · simpa using h
    have hnil := lwords_nil_of_nonword _ hall
    rw [htok] at hnil
    exact lwords_ne_nil_of_word cs hword (List.map_eq_nil_iff.mp hnil)
  rw [camelCaseV5_renderTokens _ halpha2 hword2,
    camelCaseV5_renderTokens _ halpha hword, htok, List.map_map]
  exact congrArg _ (List.map_congr_left (fun t _ => map_toLower_idem t))

/-- **C9, amended.** For every digit-free key over ASCII letters and the
separator characters `_`, `.`, `-` and space that contains at least one
letter, converting to the REST convention and back agrees with plain
camelCase: `camelCase (deCamelCaseKey k) = camelCase k` (camelcase v5
model).  Keys with other characters (such as `a$b`), keys with no
alphanumeric character (such as `_`), and digit-bearing keys on which
real lodash emits ordinal-number tokens (such as `AB1STc`) break the
round trip. -/
theorem camelCase_roundTrip_restricted (cs : List Char)
    (halpha : ∀ c ∈ cs, (c.isUpper || c.isLower || isSep c) = true)
    (hletter : ∃ c ∈ cs, (c.isUpper || c.isLower) = true) :
    camelCaseV5 (deCamelCaseKey cs) = camelCaseV5 cs := by
  apply camelCase_roundTrip_model cs
  · intro c hc
    have h := halpha c hc
    simp only [Bool.or_eq_true] at h
    simp only [keyChar, wordChar, Bool.or_eq_true]
    rcases h with (h | h) | h
    · exact Or.inl (Or.inl (Or.inl h))
    · exact Or.inl (Or.inl (Or.inr h))
    · exact Or.inr h
  · obtain ⟨c, hc, h⟩ := hletter
    refine ⟨c, hc, ?_⟩
    simp only [Bool.or_eq_true] at h ⊢
    simp only [wordChar, Bool.or_eq_true]
    exact Or.inl h

/-- Witness for C9 (amended): the digit-free key `voteAverage`
satisfies the alphabet hypotheses and round-trips. -/
theorem camelCase_roundTrip_restricted_witness :
    ((∀ c ∈ "voteAverage".data, (c.isUpper || c.isLower || isSep c) = true)
      ∧ (∃ c ∈ "voteAverage".data, (c.isUpper || c.isLower) = true))
    ∧ camelCaseV5 (deCamelCaseKey "voteAverage".data)
        = camelCaseV5 "voteAverage".data :=
  ⟨⟨by decide, by decide⟩,
    camelCase_roundTrip_restricted "voteAverage".data (by decide) (by decide)⟩

end GMDB
